import Mathlib

/-!
Verification development for the FLBacktester repository.

The repository contains two single-instrument, bar-driven backtesters:
a base variant (src/flbacktester/flbacktester.py, namespace FLB below) and
a fee-aware variant (src/cerp/cerp.py, namespace CERP below).  Prices,
quantities and fees are Python floats in the source; they are modelled as
rationals.  Order and trade UUIDs are modelled as naturals; the freshness
of uuid4 is modelled by a counter threaded through the fill engine.
Pandas timestamps are modelled as naturals.  Python dicts (keyed by order
id, iterated in insertion order) are modelled as association lists where
insertion of an existing key replaces the value in place and insertion of
a new key appends, exactly like a Python dict.
-/

/-- One OHLCV bar, i.e. the fields of a dataframe row read by the fill
engines (the volume and symbol columns are never read by them). -/
structure Bar where
  ts_event : Nat
  open_ : ℚ
  high : ℚ
  low : ℚ
  close : ℚ
  deriving DecidableEq

/-- Python dict insertion d[k] = v on an association list: if the key is
present the value is replaced in place, otherwise the pair is appended. -/
def dictInsert {α : Type} (k : Nat) (v : α) : List (Nat × α) → List (Nat × α)
  | [] => [(k, v)]
  | p :: rest => if p.1 = k then (k, v) :: rest else p :: dictInsert k v rest

/-- Python dict lookup d.get(k) on an association list. -/
def dictLookup {α : Type} (k : Nat) : List (Nat × α) → Option α
  | [] => none
  | p :: rest => if p.1 = k then some p.2 else dictLookup k rest

/-- Keys of an association list, in insertion order. -/
def keysOf {α : Type} (l : List (Nat × α)) : List Nat := l.map Prod.fst

namespace FLB

/-- TradeDirection enum of flbacktester.py. -/
inductive TradeDirection
  | BUY
  | SELL
  deriving DecidableEq

/-- Common order header (class OrderBase). -/
structure OrderBase where
  order_id : Nat
  ts_event : Nat
  trade_direction : TradeDirection
  quantity : ℚ
  deriving DecidableEq

/-- MarketOrder: no payload beyond the header; the order_type tag is
represented by the constructor of OrderU below. -/
structure MarketOrder extends OrderBase
  deriving DecidableEq

/-- LimitOrder with its limit_price payload. -/
structure LimitOrder extends OrderBase where
  limit_price : ℚ
  deriving DecidableEq

/-- StopOrder with its stop_price payload. -/
structure StopOrder extends OrderBase where
  stop_price : ℚ
  deriving DecidableEq

/-- Executed trade record (class Trade). -/
structure Trade where
  trade_id : Nat
  ts_event : Nat
  assoc_order_id : Nat
  trade_direction : TradeDirection
  quantity : ℚ
  fill_price : ℚ
  deriving DecidableEq

/-- The runtime class of an order argument to submit_order: one of the
three dataclass subclasses, or a bare OrderBase instance. -/
inductive OrderU
  | market (o : MarketOrder)
  | limit (o : LimitOrder)
  | stop (o : StopOrder)
  | base (o : OrderBase)
  deriving DecidableEq

/-- Order id carried by an order value of any runtime class. -/
def idOfU : OrderU → Nat
  | .market o => o.order_id
  | .limit o => o.order_id
  | .stop o => o.order_id
  | .base o => o.order_id

/-- The three pending-order dicts of FLBacktesterBase, plus the counter
that models uuid4 generation of fresh trade ids. -/
structure Book where
  pending_market_orders : List (Nat × MarketOrder)
  pending_limit_orders : List (Nat × LimitOrder)
  pending_stop_orders : List (Nat × StopOrder)
  nextTid : Nat
  deriving DecidableEq

/-- All ids present in any pending collection. -/
def bookIds (bk : Book) : List Nat :=
  keysOf bk.pending_market_orders ++ keysOf bk.pending_limit_orders ++
    keysOf bk.pending_stop_orders

/-- submit_order of FLBacktesterBase: dispatch on the runtime class; a
bare OrderBase matches no isinstance branch and is silently ignored. -/
def submit_order (ord : OrderU) (bk : Book) : Book :=
  match ord with
  | .market o =>
      { bk with pending_market_orders := dictInsert o.order_id o bk.pending_market_orders }
  | .limit o =>
      { bk with pending_limit_orders := dictInsert o.order_id o bk.pending_limit_orders }
  | .stop o =>
      { bk with pending_stop_orders := dictInsert o.order_id o bk.pending_stop_orders }
  | .base _ => bk

/-- Sequence of submit_order calls made by one strategy callback. -/
def submitList (os : List OrderU) (bk : Book) : Book :=
  os.foldl (fun b o => submit_order o b) bk

/-- Market loop of _process_orders: every pending market order fills at
the bar open price; trade ids n, n+1, ... model the uuid4 calls. -/
def marketPhase (n : Nat) (b : Bar) : List (Nat × MarketOrder) → List Trade × Nat
  | [] => ([], n)
  | p :: rest =>
    let r := marketPhase (n + 1) b rest
    (⟨n, b.ts_event, p.2.order_id, p.2.trade_direction, p.2.quantity, b.open_⟩ :: r.1, r.2)

/-- Fill condition of the limit loop of _process_orders. -/
def limitCond (b : Bar) (o : LimitOrder) : Prop :=
  (o.trade_direction = TradeDirection.BUY ∧ o.limit_price ≥ b.low) ∨
    (o.trade_direction = TradeDirection.SELL ∧ o.limit_price ≤ b.high)

instance (b : Bar) (o : LimitOrder) : Decidable (limitCond b o) := by
  unfold limitCond; exact inferInstance

/-- Limit loop of _process_orders: a qualifying order fills exactly at
its limit price and is deleted; otherwise it stays pending. -/
def limitPhase (n : Nat) (b : Bar) :
    List (Nat × LimitOrder) → List Trade × List (Nat × LimitOrder) × Nat
  | [] => ([], [], n)
  | p :: rest =>
    if limitCond b p.2 then
      let r := limitPhase (n + 1) b rest
      (⟨n, b.ts_event, p.2.order_id, p.2.trade_direction, p.2.quantity,
          p.2.limit_price⟩ :: r.1, r.2.1, r.2.2)
    else
      let r := limitPhase n b rest
      (r.1, p :: r.2.1, r.2.2)

/-- Trigger condition of the stop loop of _process_orders. -/
def stopCond (b : Bar) (o : StopOrder) : Prop :=
  (o.trade_direction = TradeDirection.BUY ∧ b.high ≥ o.stop_price) ∨
    (o.trade_direction = TradeDirection.SELL ∧ b.low ≤ o.stop_price)

instance (b : Bar) (o : StopOrder) : Decidable (stopCond b o) := by
  unfold stopCond; exact inferInstance

/-- Stop fill price: the worse of the stop level and the bar open. -/
def stopFillPrice (b : Bar) (o : StopOrder) : ℚ :=
  if o.trade_direction = TradeDirection.BUY then max o.stop_price b.open_
  else min o.stop_price b.open_

/-- Stop loop of _process_orders. -/
def stopPhase (n : Nat) (b : Bar) :
    List (Nat × StopOrder) → List Trade × List (Nat × StopOrder) × Nat
  | [] => ([], [], n)
  | p :: rest =>
    if stopCond b p.2 then
      let r := stopPhase (n + 1) b rest
      (⟨n, b.ts_event, p.2.order_id, p.2.trade_direction, p.2.quantity,
          stopFillPrice b p.2⟩ :: r.1, r.2.1, r.2.2)
    else
      let r := stopPhase n b rest
      (r.1, p :: r.2.1, r.2.2)

/-- _process_orders of FLBacktesterBase: the market loop runs first and
unconditionally empties the market dict, then the limit loop, then the
stop loop; the produced trades are listed in emission order. -/
def process_orders (b : Bar) (bk : Book) : List Trade × Book :=
  let m := marketPhase bk.nextTid b bk.pending_market_orders
  let l := limitPhase m.2 b bk.pending_limit_orders
  let st := stopPhase l.2.2 b bk.pending_stop_orders
  (m.1 ++ l.1 ++ st.1, ⟨[], l.2.1, st.2.1, st.2.2⟩)

/-- The buffered trade ledger of FLBacktesterBase: the in-memory deque
_trade_buffer and the durable table executed_trades. -/
structure LedgerState where
  trade_buffer : List Trade
  executed_trades : List Trade
  deriving DecidableEq

/-- _flush_trade_buffer: a no-op on an empty buffer, otherwise the whole
buffer is concatenated onto the durable table in order and cleared. -/
def flush_trade_buffer (s : LedgerState) : LedgerState :=
  if s.trade_buffer = [] then s
  else ⟨[], s.executed_trades ++ s.trade_buffer⟩

/-- Append to a collections.deque with maxlen cap: when the deque is
already at capacity the leftmost element is discarded first.  The source
constructs the deque with maxlen 1000. -/
def dequeAppend (cap : Nat) (t : Trade) (l : List Trade) : List Trade :=
  if cap ≤ l.length then l.drop 1 ++ [t] else l ++ [t]

/-- Ledger part of _add_trade: append the trade to the buffer, then
flush if the buffer length has reached the deque maxlen. -/
def ledgerAdd (cap : Nat) (t : Trade) (s : LedgerState) : LedgerState :=
  if cap ≤ (dequeAppend cap t s.trade_buffer).length
  then flush_trade_buffer ⟨dequeAppend cap t s.trade_buffer, s.executed_trades⟩
  else ⟨dequeAppend cap t s.trade_buffer, s.executed_trades⟩

/-- One dataframe row: a bar together with the live position column that
load_data initialises to 0 and _add_trade updates retroactively. -/
structure Row extends Bar where
  position : ℚ
  deriving DecidableEq

/-- Signed position delta of one trade: +quantity for BUY, -quantity for
SELL. -/
def positionChange (t : Trade) : ℚ :=
  if t.trade_direction = TradeDirection.BUY then t.quantity else -t.quantity

/-- Dataframe part of _add_trade: add the position delta to every row
whose ts_event is at or after the trade ts_event (df.loc update). -/
def applyTradeToDf (t : Trade) (df : List Row) : List Row :=
  df.map fun r =>
    if t.ts_event ≤ r.ts_event then { r with position := r.position + positionChange t }
    else r

/-- Full mutable state of an FLBacktesterBase instance during backtest:
the order book, the ledger (buffer plus durable table) and the live
dataframe rows (only ts_event and position of the dataframe are ever
written back, so a row is modelled as bar plus position). -/
structure FLState where
  book : Book
  ledger : LedgerState
  df : List Row
  deriving DecidableEq

/-- _add_trade: buffer append with capacity-triggered flush, plus the
retroactive position-column update.  The two parts touch disjoint state,
so composing them in either order yields the state the source produces. -/
def add_trade (cap : Nat) (t : Trade) (s : FLState) : FLState :=
  { s with ledger := ledgerAdd cap t s.ledger, df := applyTradeToDf t s.df }

/-- One iteration of the backtest loop over one row: _process_orders
(each produced trade is passed to _add_trade as it is created), then the
strategy callback, whose submit_order calls land in the book.  The row r
handed to the strategy is the row yielded by df.iterrows(). -/
def backtestStep (cap : Nat) (strategy : Row → List OrderU) (s : FLState) (r : Row) :
    List Trade × FLState :=
  let pr := process_orders r.toBar s.book
  let s1 := pr.1.foldl (fun acc t => add_trade cap t acc) { s with book := pr.2 }
  (pr.1, { s1 with book := submitList (strategy r) s1.book })

/-- The backtest loop over a list of rows, returning the per-bar trade
segments, the rows handed to the strategy callback in order, and the
final state. -/
def backtestAux (cap : Nat) (strategy : Row → List OrderU) :
    FLState → List Row → List (List Trade) × List Row × FLState
  | s, [] => ([], [], s)
  | s, r :: rs =>
    let st := backtestStep cap strategy s r
    let rest := backtestAux cap strategy st.2 rs
    (st.1 :: rest.1, r :: rest.2.1, rest.2.2)

/-- backtest of FLBacktesterBase.  pandas df.iterrows() materialises
df.values once when the loop starts, so the rows yielded to the loop body
(and hence to the strategy callback) are a snapshot of the dataframe
taken before the first bar is processed; the in-place position updates of
_add_trade mutate s.df but are never reflected in the yielded rows.  The
loop is therefore driven by the snapshot s0.df while the live dataframe
evolves inside the state.  No flush of the trade buffer happens after the
loop: the method body ends with the loop. -/
def backtest (cap : Nat) (strategy : Row → List OrderU) (s0 : FLState) :
    List (List Trade) × List Row × FLState :=
  backtestAux cap strategy s0 s0.df

/-- Per-bar trade segments of a backtest run started at state s over the
given rows. -/
def runSegs (cap : Nat) (strategy : Row → List OrderU) (s : FLState) (rows : List Row) :
    List (List Trade) :=
  (backtestAux cap strategy s rows).1

/-- Rows handed to the strategy callback during a run. -/
def runCalls (cap : Nat) (strategy : Row → List OrderU) (s : FLState) (rows : List Row) :
    List Row :=
  (backtestAux cap strategy s rows).2.1

/-- Final state of a run. -/
def runState (cap : Nat) (strategy : Row → List OrderU) (s : FLState) (rows : List Row) :
    FLState :=
  (backtestAux cap strategy s rows).2.2

/-- Number of trades in a list referencing the given order id. -/
def countAssoc (x : Nat) (ts : List Trade) : Nat :=
  (ts.filter fun t => t.assoc_order_id = x).length

/-- Ids of the orders submitted by one strategy callback. -/
def subIds (os : List OrderU) : List Nat := os.map idOfU

/-- Well-formedness of the order book that the source maintains by
construction: each dict has no duplicate keys (Python dict keys are
unique) and every stored order is keyed by its own order_id (submit_order
always inserts at key order.order_id). -/
structure BookWF (bk : Book) : Prop where
  ndm : (keysOf bk.pending_market_orders).Nodup
  ndl : (keysOf bk.pending_limit_orders).Nodup
  nds : (keysOf bk.pending_stop_orders).Nodup
  km : ∀ p ∈ bk.pending_market_orders, p.2.order_id = p.1
  kl : ∀ p ∈ bk.pending_limit_orders, p.2.order_id = p.1
  ks : ∀ p ∈ bk.pending_stop_orders, p.2.order_id = p.1

/-- An operation on the trade ledger: an _add_trade call (its ledger
part) or an explicit _flush_trade_buffer call. -/
inductive LOp
  | add (t : Trade)
  | flush
  deriving DecidableEq

/-- Apply one ledger operation at buffer capacity cap. -/
def applyOp (cap : Nat) (s : LedgerState) : LOp → LedgerState
  | .add t => ledgerAdd cap t s
  | .flush => flush_trade_buffer s

/-- Apply a sequence of ledger operations in order. -/
def runOps (cap : Nat) (s : LedgerState) (ops : List LOp) : LedgerState :=
  ops.foldl (applyOp cap) s

/-- The trades submitted by the add operations of a sequence, in order. -/
def tradesOfOps : List LOp → List Trade
  | [] => []
  | .add t :: rest => t :: tradesOfOps rest
  | .flush :: rest => tradesOfOps rest

/-- Signed sum of the filled quantities of a list of trades. -/
def signedSum (ts : List Trade) : ℚ :=
  (ts.map positionChange).sum

end FLB

/-! Concrete two-bar scenario used by the counterexample evaluations:
bar 1 at ts 1 with open 100, bar 2 at ts 2 with open 102; the strategy
submits one market BUY of quantity 1 (order id 7) during the bar-1
callback and nothing else; the initial state has empty pending dicts, an
empty ledger and the position column at 0 as load_data leaves it. -/

/-- First bar of the scenario. -/
def exBar1 : Bar := ⟨1, 100, 101, 99, 100⟩

/-- Second bar of the scenario. -/
def exBar2 : Bar := ⟨2, 102, 103, 101, 102⟩

/-- Strategy callback of the scenario: one market BUY at bar 1. -/
def exStrategy : FLB.Row → List FLB.OrderU := fun r =>
  if r.ts_event = 1 then [FLB.OrderU.market ⟨⟨7, 1, FLB.TradeDirection.BUY, 1⟩⟩] else []

/-- Initial backtester state of the scenario. -/
def exState0 : FLB.FLState :=
  ⟨⟨[], [], [], 0⟩, ⟨[], []⟩, [⟨exBar1, 0⟩, ⟨exBar2, 0⟩]⟩

/-- The trade that the scenario fills at bar 2. -/
def exTrade : FLB.Trade := ⟨0, 2, 7, FLB.TradeDirection.BUY, 1, 102⟩

/-- Market order id 1, BUY quantity 5. -/
def exMO5 : FLB.MarketOrder := ⟨⟨1, 0, FLB.TradeDirection.BUY, 5⟩⟩

/-- Market order with the same id 1 but BUY quantity 7. -/
def exMO7 : FLB.MarketOrder := ⟨⟨1, 0, FLB.TradeDirection.BUY, 7⟩⟩

/-- Book already holding exMO5 under its id 1. -/
def exBook1 : FLB.Book := ⟨[(1, exMO5)], [], [], 0⟩

/-- Market order with non-positive quantity -5. -/
def exMOneg : FLB.MarketOrder := ⟨⟨1, 0, FLB.TradeDirection.BUY, -5⟩⟩

/-- Limit BUY order, limit 100, quantity 2, id 1. -/
def exLO : FLB.LimitOrder := ⟨⟨1, 0, FLB.TradeDirection.BUY, 2⟩, 100⟩

/-- Book holding only exLO. -/
def exLBook : FLB.Book := ⟨[], [(1, exLO)], [], 0⟩

/-- Stop SELL order, stop 100, quantity 2, id 1. -/
def exSO : FLB.StopOrder := ⟨⟨1, 0, FLB.TradeDirection.SELL, 2⟩, 100⟩

/-- Book holding only exSO. -/
def exSBook : FLB.Book := ⟨[], [], [(1, exSO)], 0⟩

namespace CERP

/-- Side enum of cerp.py. -/
inductive Side
  | BUY
  | SELL
  deriving DecidableEq

/-- Common order header (class OrderBase of cerp.py). -/
structure OrderBase where
  order_id : Nat
  ts_event : Nat
  order_direction : Side
  quantity : ℚ
  deriving DecidableEq

/-- MarketOrder of cerp.py. -/
structure MarketOrder extends OrderBase
  deriving DecidableEq

/-- LimitOrder of cerp.py. -/
structure LimitOrder extends OrderBase where
  limit_price : ℚ
  deriving DecidableEq

/-- StopOrder of cerp.py. -/
structure StopOrder extends OrderBase where
  stop_price : ℚ
  deriving DecidableEq

/-- Trade record of cerp.py, carrying the raw fill price, the total fee
in dollars and the fee-adjusted fill price in points. -/
structure Trade where
  trade_id : Nat
  ts_event : Nat
  associated_order_id : Nat
  trade_direction : Side
  quantity : ℚ
  fill_at : ℚ
  commission_and_fees : ℚ
  fill_adjusted : ℚ
  deriving DecidableEq

/-- Contract specification (frozen dataclass Contract); the symbol and
description strings are omitted as no claim reads them. -/
structure Contract where
  point_value : ℚ
  tick_size : ℚ
  intraday_initial_margin : ℚ
  intraday_maintenance_margin : ℚ
  long_overnight_initial_margin : ℚ
  long_overnight_maintenance_margin : ℚ
  short_overnight_initial_margin : ℚ
  short_overnight_maintenance_margin : ℚ
  broker_commission_per_contract : ℚ
  exchange_fees_per_contract : ℚ
  deriving DecidableEq

/-- The runtime class of an order argument to cerp submit_order. -/
inductive COrderU
  | market (o : MarketOrder)
  | limit (o : LimitOrder)
  | stop (o : StopOrder)
  | base (o : OrderBase)
  deriving DecidableEq

/-- Mutable state of a SingleContractBacktesterBase instance: the
optional pricing context, the cached total fee per contract, the three
pending dicts, and the uuid4 counter.  Source attribute names carry a
leading underscore (_current_contract, _total_fees_per_contract). -/
structure BTState where
  current_contract : Option Contract
  total_fees_per_contract : ℚ
  pending_market_orders : List (Nat × MarketOrder)
  pending_limit_orders : List (Nat × LimitOrder)
  pending_stop_orders : List (Nat × StopOrder)
  nextTid : Nat
  deriving DecidableEq

/-- set_contract: store the contract and cache commission plus exchange
fees per contract. -/
def set_contract (c : Contract) (s : BTState) : BTState :=
  { s with
    current_contract := some c,
    total_fees_per_contract :=
      c.broker_commission_per_contract + c.exchange_fees_per_contract }

/-- The ValueError raised by _process_pending_orders when no contract is
configured (the ConfigurationError of the spec taxonomy). -/
inductive CerpError
  | contractNotSet
  deriving DecidableEq

/-- submit_order of SingleContractBacktesterBase: identical dispatch to
the flbacktester variant, including the silent fall-through for a bare
OrderBase. -/
def submit_order (ord : COrderU) (s : BTState) : BTState :=
  match ord with
  | .market o =>
      { s with pending_market_orders := dictInsert o.order_id o s.pending_market_orders }
  | .limit o =>
      { s with pending_limit_orders := dictInsert o.order_id o s.pending_limit_orders }
  | .stop o =>
      { s with pending_stop_orders := dictInsert o.order_id o s.pending_stop_orders }
  | .base _ => s

/-- Market loop of _process_pending_orders: every pending market order
fills at the bar open; the fee-adjusted price adds fees divided by point
value for BUY and subtracts it for SELL; commission_and_fees is the
total fee times the quantity. -/
def cerpMarketFills (n : Nat) (b : Bar) (fees pv : ℚ) :
    List (Nat × MarketOrder) → List Trade × Nat
  | [] => ([], n)
  | p :: rest =>
    let adj : ℚ :=
      if p.2.order_direction = Side.BUY then b.open_ + fees / pv else b.open_ - fees / pv
    let r := cerpMarketFills (n + 1) b fees pv rest
    (⟨n, b.ts_event, p.2.order_id, p.2.order_direction, p.2.quantity, b.open_,
        fees * p.2.quantity, adj⟩ :: r.1, r.2)

/-- _process_pending_orders of SingleContractBacktesterBase: raises if
and only if no contract has been set, before looking at any order; then
fills and deletes every pending market order; the limit loop and the
stop loop are literal pass statements, so the limit and stop dicts are
returned unchanged and produce no trades. -/
def process_pending_orders (b : Bar) (s : BTState) :
    Except CerpError (List Trade × BTState) :=
  match s.current_contract with
  | none => .error .contractNotSet
  | some c =>
    let m := cerpMarketFills s.nextTid b s.total_fees_per_contract c.point_value
      s.pending_market_orders
    .ok (m.1, { s with pending_market_orders := [], nextTid := m.2 })

end CERP

/-- Concrete contract used with the fee-aware variant: point value 2,
commission 1 and exchange fee 1 per contract, so the per-unit fee shift
in points is (1 + 1) / 2 = 1. -/
def exContract : CERP.Contract := ⟨2, 1/4, 0, 0, 0, 0, 0, 0, 1, 1⟩

/-- One pending cerp market SELL order of quantity 2 under id 3. -/
def exCerpMarket : CERP.MarketOrder := ⟨⟨3, 0, CERP.Side.SELL, 2⟩⟩

/-- Cerp state with the market order pending and no contract set yet. -/
def exCerpState : CERP.BTState := ⟨none, 0, [(3, exCerpMarket)], [], [], 0⟩

/-- Cerp state with nothing pending and no contract set. -/
def exCerpEmpty : CERP.BTState := ⟨none, 0, [], [], [], 0⟩

/-- Pending cerp limit BUY with limit 100: against exBar1 (low 99) the
specified fill condition limit_price >= low holds. -/
def exCerpLimit : CERP.LimitOrder := ⟨⟨1, 0, CERP.Side.BUY, 1⟩, 100⟩

/-- Cerp state with the contract configured (cached total fee 2) and the
limit order pending. -/
def exCerpLimitState : CERP.BTState :=
  ⟨some exContract, 2, [], [(1, exCerpLimit)], [], 0⟩

/-- Pending cerp stop BUY with stop 100: against exBar1 (high 101) the
specified trigger condition high >= stop_price holds. -/
def exCerpStop : CERP.StopOrder := ⟨⟨2, 0, CERP.Side.BUY, 1⟩, 100⟩

/-- Cerp state with the contract configured and the stop order pending. -/
def exCerpStopState : CERP.BTState :=
  ⟨some exContract, 2, [], [], [(2, exCerpStop)], 0⟩


/-! Lemmas about the association-list model of Python dicts. -/

theorem keysOf_nil {α : Type} : keysOf ([] : List (Nat × α)) = [] := rfl

theorem keysOf_cons {α : Type} (p : Nat × α) (l : List (Nat × α)) :
    keysOf (p :: l) = p.1 :: keysOf l := rfl

theorem keysOf_append {α : Type} (l1 l2 : List (Nat × α)) :
    keysOf (l1 ++ l2) = keysOf l1 ++ keysOf l2 :=
  List.map_append _ _ _

theorem dictLookup_dictInsert_self {α : Type} (k : Nat) (v : α) (l : List (Nat × α)) :
    dictLookup k (dictInsert k v l) = some v := by
  induction l with
  | nil => simp [dictInsert, dictLookup]
  | cons p rest ih =>
    by_cases h : p.1 = k
    · simp [dictInsert, dictLookup, h]
    · simp [dictInsert, dictLookup, h, ih]

theorem dictLookup_dictInsert_ne {α : Type} (k j : Nat) (v : α) (l : List (Nat × α))
    (h : j ≠ k) : dictLookup j (dictInsert k v l) = dictLookup j l := by
  have hk : ¬(k = j) := fun e => h e.symm
  induction l with
  | nil => simp [dictInsert, dictLookup, hk]
  | cons p rest ih =>
    by_cases hp : p.1 = k
    · simp [dictInsert, dictLookup, hp, hk]
    · by_cases hj : p.1 = j
      · simp [dictInsert, dictLookup, hp, hj, h, hk]
      · simp [dictInsert, dictLookup, hp, hj, ih]

theorem mem_keysOf_dictInsert {α : Type} (y k : Nat) (v : α) (l : List (Nat × α)) :
    y ∈ keysOf (dictInsert k v l) ↔ y = k ∨ y ∈ keysOf l := by
  induction l with
  | nil => simp [dictInsert, keysOf]
  | cons p rest ih =>
    by_cases h : p.1 = k
    · subst h
      simp only [dictInsert, if_true]
      simp only [keysOf_cons, List.mem_cons]
      tauto
    · simp only [dictInsert, if_neg h, keysOf_cons, List.mem_cons, ih]
      tauto

theorem nodup_keysOf_dictInsert {α : Type} (k : Nat) (v : α) (l : List (Nat × α))
    (h : (keysOf l).Nodup) : (keysOf (dictInsert k v l)).Nodup := by
  induction l with
  | nil => simp [dictInsert, keysOf]
  | cons p rest ih =>
    rw [keysOf_cons, List.nodup_cons] at h
    by_cases hp : p.1 = k
    · subst hp
      simpa [dictInsert, keysOf_cons, List.nodup_cons] using h
    · simp only [dictInsert, if_neg hp, keysOf_cons, List.nodup_cons]
      refine ⟨?_, ih h.2⟩
      rw [mem_keysOf_dictInsert]
      rintro (e | e)
      · exact hp e
      · exact h.1 e

theorem keyfun_dictInsert {α : Type} (f : α → Nat) (v : α) (l : List (Nat × α))
    (h : ∀ p ∈ l, f p.2 = p.1) : ∀ p ∈ dictInsert (f v) v l, f p.2 = p.1 := by
  induction l with
  | nil =>
    intro p hp
    simp only [dictInsert, List.mem_singleton] at hp
    subst hp
    rfl
  | cons q rest ih =>
    intro p hp
    by_cases hq : q.1 = f v
    · simp only [dictInsert, if_pos hq, List.mem_cons] at hp
      rcases hp with e | e
      · subst e; rfl
      · exact h p (List.mem_cons_of_mem _ e)
    · simp only [dictInsert, if_neg hq, List.mem_cons] at hp
      rcases hp with e | e
      · subst e; exact h p (List.mem_cons_self _ _)
      · exact ih (fun r hr => h r (List.mem_cons_of_mem _ hr)) p e

theorem dictLookup_eq_some_split {α : Type} (x : Nat) (o : α) (l : List (Nat × α))
    (h : dictLookup x l = some o) :
    ∃ l1 l2, l = l1 ++ (x, o) :: l2 ∧ x ∉ keysOf l1 := by
  induction l with
  | nil => simp [dictLookup] at h
  | cons p rest ih =>
    rcases p with ⟨k, v⟩
    by_cases hp : k = x
    · subst hp
      simp [dictLookup] at h
      exact ⟨[], rest, by simp [h], by simp [keysOf]⟩
    · simp [dictLookup, hp] at h
      obtain ⟨l1, l2, he, hn⟩ := ih h
      refine ⟨(k, v) :: l1, l2, by simp [he], ?_⟩
      simp only [keysOf_cons, List.mem_cons]
      rintro (e | e)
      · exact hp e.symm
      · exact hn e

theorem dictLookup_append_of_not_mem {α : Type} (x : Nat) (l1 l2 : List (Nat × α))
    (h : x ∉ keysOf l1) : dictLookup x (l1 ++ l2) = dictLookup x l2 := by
  induction l1 with
  | nil => simp
  | cons p rest ih =>
    rw [keysOf_cons] at h
    simp only [List.mem_cons] at h
    push_neg at h
    have hne : ¬(p.1 = x) := fun e => h.1 e.symm
    rw [List.cons_append]
    simp only [dictLookup, hne, if_false]
    exact ih h.2

theorem mem_of_dictLookup_eq_some {α : Type} (x : Nat) (o : α) (l : List (Nat × α))
    (h : dictLookup x l = some o) : (x, o) ∈ l := by
  obtain ⟨l1, l2, he, -⟩ := dictLookup_eq_some_split x o l h
  subst he
  simp

theorem keyfun_ne_of_not_mem {α : Type} (f : α → Nat) (x : Nat) (l : List (Nat × α))
    (h : ∀ p ∈ l, f p.2 = p.1) (hx : x ∉ keysOf l) : ∀ p ∈ l, f p.2 ≠ x := by
  intro p hp e
  apply hx
  have hpx : p.1 = x := by rw [← h p hp, e]
  rw [← hpx]
  exact List.mem_map_of_mem Prod.fst hp

theorem not_mem_keysOf_filter {α : Type} (q : Nat × α → Bool) (x : Nat) (l : List (Nat × α))
    (hx : x ∉ keysOf l) : x ∉ keysOf (l.filter q) := by
  intro hmem
  apply hx
  rcases List.mem_map.1 hmem with ⟨p, hp, rfl⟩
  exact List.mem_map_of_mem Prod.fst (List.mem_of_mem_filter hp)

theorem nodup_keysOf_split {α : Type} (x : Nat) (o : α) (l1 l2 : List (Nat × α))
    (hnd : (keysOf (l1 ++ (x, o) :: l2)).Nodup) : x ∉ keysOf l1 ∧ x ∉ keysOf l2 := by
  rw [keysOf_append, keysOf_cons, List.nodup_append] at hnd
  obtain ⟨-, h2, hdisj⟩ := hnd
  rw [List.nodup_cons] at h2
  refine ⟨fun hx => ?_, h2.1⟩
  exact hdisj hx (List.mem_cons_self _ _)

theorem not_mem_keysOf_filter_of_lookup {α : Type} (q : Nat × α → Bool) (x : Nat) (o : α)
    (l : List (Nat × α)) (hnd : (keysOf l).Nodup) (hl : dictLookup x l = some o)
    (hq : q (x, o) = false) : x ∉ keysOf (l.filter q) := by
  obtain ⟨l1, l2, rfl, -⟩ := dictLookup_eq_some_split x o l hl
  obtain ⟨hn1, hn2⟩ := nodup_keysOf_split x o l1 l2 hnd
  rw [List.filter_append, List.filter_cons, hq]
  simp only [Bool.false_eq_true, if_false, keysOf_append, List.mem_append]
  rintro (e | e)
  · exact not_mem_keysOf_filter q x l1 hn1 e
  · exact not_mem_keysOf_filter q x l2 hn2 e

theorem dictLookup_filter_of_lookup {α : Type} (q : Nat × α → Bool) (x : Nat) (o : α)
    (l : List (Nat × α)) (hl : dictLookup x l = some o)
    (hq : q (x, o) = true) : dictLookup x (l.filter q) = some o := by
  obtain ⟨l1, l2, rfl, hn1⟩ := dictLookup_eq_some_split x o l hl
  rw [List.filter_append, List.filter_cons, hq]
  simp only [if_true]
  rw [dictLookup_append_of_not_mem x _ _ (not_mem_keysOf_filter q x l1 hn1)]
  simp [dictLookup]

namespace FLB

theorem marketPhase_filter_of_not_mem (b : Bar) (x : Nat) :
    ∀ (l : List (Nat × MarketOrder)) (n : Nat),
      (∀ p ∈ l, p.2.order_id ≠ x) →
      (marketPhase n b l).1.filter (fun t => t.assoc_order_id = x) = [] := by
  intro l
  induction l with
  | nil => intro n h; simp [marketPhase]
  | cons p rest ih =>
    intro n h
    have hne := h p (List.mem_cons_self _ _)
    simp only [marketPhase, List.filter_cons, hne]
    simp only [decide_eq_true_eq, hne, if_false]
    exact ih (n + 1) fun q hq => h q (List.mem_cons_of_mem _ hq)

theorem marketPhase_filter_of_mem (b : Bar) (x : Nat) :
    ∀ (l1 : List (Nat × MarketOrder)) (k : Nat) (o : MarketOrder)
      (l2 : List (Nat × MarketOrder)) (n : Nat),
      (∀ p ∈ l1, p.2.order_id ≠ x) → (∀ p ∈ l2, p.2.order_id ≠ x) → o.order_id = x →
      ∃ m, (marketPhase n b (l1 ++ (k, o) :: l2)).1.filter
          (fun t => t.assoc_order_id = x) =
        [⟨m, b.ts_event, x, o.trade_direction, o.quantity, b.open_⟩] := by
  intro l1
  induction l1 with
  | nil =>
    intro k o l2 n h1 h2 ho
    refine ⟨n, ?_⟩
    simp only [List.nil_append, marketPhase, List.filter_cons]
    simp only [decide_eq_true_eq, ho, if_true]
    rw [marketPhase_filter_of_not_mem b x l2 (n + 1) h2]
  | cons p rest ih =>
    intro k o l2 n h1 h2 ho
    have hne := h1 p (List.mem_cons_self _ _)
    obtain ⟨m, hm⟩ := ih k o l2 (n + 1)
      (fun q hq => h1 q (List.mem_cons_of_mem _ hq)) h2 ho
    refine ⟨m, ?_⟩
    simp only [List.cons_append, marketPhase, List.filter_cons]
    simp only [decide_eq_true_eq, hne, if_false]
    exact hm

end FLB

theorem nodup_keysOf_filter {α : Type} (q : Nat × α → Bool) (l : List (Nat × α))
    (h : (keysOf l).Nodup) : (keysOf (l.filter q)).Nodup :=
  List.Nodup.sublist (List.Sublist.map Prod.fst (List.filter_sublist l)) h

namespace FLB

theorem limitPhase_pending_eq (b : Bar) :
    ∀ (l : List (Nat × LimitOrder)) (n : Nat),
      (limitPhase n b l).2.1 = l.filter fun p => decide (¬ limitCond b p.2) := by
  intro l
  induction l with
  | nil => intro n; simp [limitPhase]
  | cons p rest ih =>
    intro n
    by_cases hc : limitCond b p.2
    · simp [limitPhase, hc, List.filter_cons, ih]
    · simp [limitPhase, hc, List.filter_cons, ih]

theorem limitPhase_filter_of_not_mem (b : Bar) (x : Nat) :
    ∀ (l : List (Nat × LimitOrder)) (n : Nat),
      (∀ p ∈ l, p.2.order_id ≠ x) →
      (limitPhase n b l).1.filter (fun t => t.assoc_order_id = x) = [] := by
  intro l
  induction l with
  | nil => intro n h; simp [limitPhase]
  | cons p rest ih =>
    intro n h
    have hne := h p (List.mem_cons_self _ _)
    have hrest := fun q hq => h q (List.mem_cons_of_mem _ hq)
    by_cases hc : limitCond b p.2
    · simp only [limitPhase, hc, if_true, List.filter_cons]
      simp only [decide_eq_true_eq, hne, if_false]
      exact ih (n + 1) hrest
    · simp only [limitPhase, hc, if_false]
      exact ih n hrest

theorem limitPhase_filter_of_mem_cond (b : Bar) (x : Nat) :
    ∀ (l1 : List (Nat × LimitOrder)) (k : Nat) (o : LimitOrder)
      (l2 : List (Nat × LimitOrder)) (n : Nat),
      (∀ p ∈ l1, p.2.order_id ≠ x) → (∀ p ∈ l2, p.2.order_id ≠ x) → o.order_id = x →
      limitCond b o →
      ∃ m, (limitPhase n b (l1 ++ (k, o) :: l2)).1.filter
          (fun t => t.assoc_order_id = x) =
        [⟨m, b.ts_event, x, o.trade_direction, o.quantity, o.limit_price⟩] := by
  intro l1
  induction l1 with
  | nil =>
    intro k o l2 n h1 h2 ho hc
    refine ⟨n, ?_⟩
    simp only [List.nil_append, limitPhase, hc, if_true, List.filter_cons]
    simp only [decide_eq_true_eq, ho, if_true]
    rw [limitPhase_filter_of_not_mem b x l2 (n + 1) h2]
  | cons p rest ih =>
    intro k o l2 n h1 h2 ho hc
    have hne := h1 p (List.mem_cons_self _ _)
    have hrest := fun q hq => h1 q (List.mem_cons_of_mem _ hq)
    by_cases hcp : limitCond b p.2
    · obtain ⟨m, hm⟩ := ih k o l2 (n + 1) hrest h2 ho hc
      refine ⟨m, ?_⟩
      simp only [List.cons_append, limitPhase, hcp, if_true, List.filter_cons]
      simp only [decide_eq_true_eq, hne, if_false]
      exact hm
    · obtain ⟨m, hm⟩ := ih k o l2 n hrest h2 ho hc
      refine ⟨m, ?_⟩
      simp only [List.cons_append, limitPhase, hcp, if_false]
      exact hm

theorem limitPhase_filter_of_mem_not_cond (b : Bar) (x : Nat) :
    ∀ (l1 : List (Nat × LimitOrder)) (k : Nat) (o : LimitOrder)
      (l2 : List (Nat × LimitOrder)) (n : Nat),
      (∀ p ∈ l1, p.2.order_id ≠ x) → (∀ p ∈ l2, p.2.order_id ≠ x) →
      ¬ limitCond b o →
      (limitPhase n b (l1 ++ (k, o) :: l2)).1.filter
        (fun t => t.assoc_order_id = x) = [] := by
  intro l1
  induction l1 with
  | nil =>
    intro k o l2 n h1 h2 hc
    simp only [List.nil_append, limitPhase, hc, if_false]
    exact limitPhase_filter_of_not_mem b x l2 n h2
  | cons p rest ih =>
    intro k o l2 n h1 h2 hc
    have hne := h1 p (List.mem_cons_self _ _)
    have hrest := fun q hq => h1 q (List.mem_cons_of_mem _ hq)
    by_cases hcp : limitCond b p.2
    · simp only [List.cons_append, limitPhase, hcp, if_true, List.filter_cons]
      simp only [decide_eq_true_eq, hne, if_false]
      exact ih k o l2 (n + 1) hrest h2 hc
    · simp only [List.cons_append, limitPhase, hcp, if_false]
      exact ih k o l2 n hrest h2 hc

theorem stopPhase_pending_eq (b : Bar) :
    ∀ (l : List (Nat × StopOrder)) (n : Nat),
      (stopPhase n b l).2.1 = l.filter fun p => decide (¬ stopCond b p.2) := by
  intro l
  induction l with
  | nil => intro n; simp [stopPhase]
  | cons p rest ih =>
    intro n
    by_cases hc : stopCond b p.2
    · simp [stopPhase, hc, List.filter_cons, ih]
    · simp [stopPhase, hc, List.filter_cons, ih]

theorem stopPhase_filter_of_not_mem (b : Bar) (x : Nat) :
    ∀ (l : List (Nat × StopOrder)) (n : Nat),
      (∀ p ∈ l, p.2.order_id ≠ x) →
      (stopPhase n b l).1.filter (fun t => t.assoc_order_id = x) = [] := by
  intro l
  induction l with
  | nil => intro n h; simp [stopPhase]
  | cons p rest ih =>
    intro n h
    have hne := h p (List.mem_cons_self _ _)
    have hrest := fun q hq => h q (List.mem_cons_of_mem _ hq)
    by_cases hc : stopCond b p.2
    · simp only [stopPhase, hc, if_true, List.filter_cons]
      simp only [decide_eq_true_eq, hne, if_false]
      exact ih (n + 1) hrest
    · simp only [stopPhase, hc, if_false]
      exact ih n hrest

theorem stopPhase_filter_of_mem_cond (b : Bar) (x : Nat) :
    ∀ (l1 : List (Nat × StopOrder)) (k : Nat) (o : StopOrder)
      (l2 : List (Nat × StopOrder)) (n : Nat),
      (∀ p ∈ l1, p.2.order_id ≠ x) → (∀ p ∈ l2, p.2.order_id ≠ x) → o.order_id = x →
      stopCond b o →
      ∃ m, (stopPhase n b (l1 ++ (k, o) :: l2)).1.filter
          (fun t => t.assoc_order_id = x) =
        [⟨m, b.ts_event, x, o.trade_direction, o.quantity, stopFillPrice b o⟩] := by
  intro l1
  induction l1 with
  | nil =>
    intro k o l2 n h1 h2 ho hc
    refine ⟨n, ?_⟩
    simp only [List.nil_append, stopPhase, hc, if_true, List.filter_cons]
    simp only [decide_eq_true_eq, ho, if_true]
    rw [stopPhase_filter_of_not_mem b x l2 (n + 1) h2]
  | cons p rest ih =>
    intro k o l2 n h1 h2 ho hc
    have hne := h1 p (List.mem_cons_self _ _)
    have hrest := fun q hq => h1 q (List.mem_cons_of_mem _ hq)
    by_cases hcp : stopCond b p.2
    · obtain ⟨m, hm⟩ := ih k o l2 (n + 1) hrest h2 ho hc
      refine ⟨m, ?_⟩
      simp only [List.cons_append, stopPhase, hcp, if_true, List.filter_cons]
      simp only [decide_eq_true_eq, hne, if_false]
      exact hm
    · obtain ⟨m, hm⟩ := ih k o l2 n hrest h2 ho hc
      refine ⟨m, ?_⟩
      simp only [List.cons_append, stopPhase, hcp, if_false]
      exact hm

theorem stopPhase_filter_of_mem_not_cond (b : Bar) (x : Nat) :
    ∀ (l1 : List (Nat × StopOrder)) (k : Nat) (o : StopOrder)
      (l2 : List (Nat × StopOrder)) (n : Nat),
      (∀ p ∈ l1, p.2.order_id ≠ x) → (∀ p ∈ l2, p.2.order_id ≠ x) →
      ¬ stopCond b o →
      (stopPhase n b (l1 ++ (k, o) :: l2)).1.filter
        (fun t => t.assoc_order_id = x) = [] := by
  intro l1
  induction l1 with
  | nil =>
    intro k o l2 n h1 h2 hc
    simp only [List.nil_append, stopPhase, hc, if_false]
    exact stopPhase_filter_of_not_mem b x l2 n h2
  | cons p rest ih =>
    intro k o l2 n h1 h2 hc
    have hne := h1 p (List.mem_cons_self _ _)
    have hrest := fun q hq => h1 q (List.mem_cons_of_mem _ hq)
    by_cases hcp : stopCond b p.2
    · simp only [List.cons_append, stopPhase, hcp, if_true, List.filter_cons]
      simp only [decide_eq_true_eq, hne, if_false]
      exact ih k o l2 (n + 1) hrest h2 hc
    · simp only [List.cons_append, stopPhase, hcp, if_false]
      exact ih k o l2 n hrest h2 hc

end FLB

namespace FLB

theorem process_orders_wf (b : Bar) (bk : Book) (h : BookWF bk) :
    BookWF (process_orders b bk).2 := by
  refine ⟨?_, ?_, ?_, ?_, ?_, ?_⟩
  · simp [process_orders, keysOf]
  · simp only [process_orders, limitPhase_pending_eq]
    exact nodup_keysOf_filter _ _ h.ndl
  · simp only [process_orders, stopPhase_pending_eq]
    exact nodup_keysOf_filter _ _ h.nds
  · simp [process_orders]
  · intro p hp
    simp only [process_orders, limitPhase_pending_eq] at hp
    exact h.kl p (List.mem_of_mem_filter hp)
  · intro p hp
    simp only [process_orders, stopPhase_pending_eq] at hp
    exact h.ks p (List.mem_of_mem_filter hp)

theorem process_orders_no_x (b : Bar) (bk : Book) (x : Nat) (h : BookWF bk)
    (hx : x ∉ bookIds bk) :
    (process_orders b bk).1.filter (fun t => t.assoc_order_id = x) = [] ∧
      x ∉ bookIds (process_orders b bk).2 := by
  simp only [bookIds, List.mem_append] at hx
  push_neg at hx
  obtain ⟨⟨hxm, hxl⟩, hxs⟩ := hx
  constructor
  · simp only [process_orders, List.filter_append]
    rw [marketPhase_filter_of_not_mem b x _ _
        (keyfun_ne_of_not_mem (fun o => o.order_id) x _ h.km hxm),
      limitPhase_filter_of_not_mem b x _ _
        (keyfun_ne_of_not_mem (fun o => o.order_id) x _ h.kl hxl),
      stopPhase_filter_of_not_mem b x _ _
        (keyfun_ne_of_not_mem (fun o => o.order_id) x _ h.ks hxs)]
    rfl
  · simp only [bookIds, List.mem_append, process_orders, limitPhase_pending_eq,
      stopPhase_pending_eq]
    push_neg
    refine ⟨⟨by simp [keysOf], ?_⟩, ?_⟩
    · exact not_mem_keysOf_filter _ x _ hxl
    · exact not_mem_keysOf_filter _ x _ hxs

theorem submit_order_wf (o : OrderU) (bk : Book) (h : BookWF bk) :
    BookWF (submit_order o bk) := by
  cases o with
  | market o =>
    exact ⟨nodup_keysOf_dictInsert _ _ _ h.ndm, h.ndl, h.nds,
      keyfun_dictInsert (fun v : MarketOrder => v.order_id) o _ h.km, h.kl, h.ks⟩
  | limit o =>
    exact ⟨h.ndm, nodup_keysOf_dictInsert _ _ _ h.ndl, h.nds, h.km,
      keyfun_dictInsert (fun v : LimitOrder => v.order_id) o _ h.kl, h.ks⟩
  | stop o =>
    exact ⟨h.ndm, h.ndl, nodup_keysOf_dictInsert _ _ _ h.nds, h.km, h.kl,
      keyfun_dictInsert (fun v : StopOrder => v.order_id) o _ h.ks⟩
  | base o => exact h

theorem submitList_wf (os : List OrderU) : ∀ (bk : Book), BookWF bk →
    BookWF (submitList os bk) := by
  induction os with
  | nil => intro bk h; exact h
  | cons u rest ih =>
    intro bk h
    rw [submitList, List.foldl_cons]
    exact ih _ (submit_order_wf u bk h)

theorem mem_bookIds_submit (o : OrderU) (bk : Book) (y : Nat)
    (h : y ∈ bookIds (submit_order o bk)) : y = idOfU o ∨ y ∈ bookIds bk := by
  cases o with
  | market o =>
    simp only [submit_order, bookIds, List.mem_append, mem_keysOf_dictInsert] at h
    simp only [idOfU, bookIds, List.mem_append]
    tauto
  | limit o =>
    simp only [submit_order, bookIds, List.mem_append, mem_keysOf_dictInsert] at h
    simp only [idOfU, bookIds, List.mem_append]
    tauto
  | stop o =>
    simp only [submit_order, bookIds, List.mem_append, mem_keysOf_dictInsert] at h
    simp only [idOfU, bookIds, List.mem_append]
    tauto
  | base o =>
    simp only [idOfU]
    right
    exact h

theorem submit_order_not_mem (o : OrderU) (bk : Book) (x : Nat) (hx : x ∉ bookIds bk)
    (ho : idOfU o ≠ x) : x ∉ bookIds (submit_order o bk) := by
  intro hmem
  rcases mem_bookIds_submit o bk x hmem with e | e
  · exact ho e.symm
  · exact hx e

theorem submitList_not_mem (x : Nat) : ∀ (os : List OrderU) (bk : Book),
    x ∉ bookIds bk → x ∉ subIds os → x ∉ bookIds (submitList os bk) := by
  intro os
  induction os with
  | nil => intro bk hx _; exact hx
  | cons u rest ih =>
    intro bk hx hs
    simp only [subIds, List.map_cons, List.mem_cons] at hs
    push_neg at hs
    rw [submitList, List.foldl_cons]
    exact ih (submit_order u bk) (submit_order_not_mem u bk x hx fun e => hs.1 e.symm)
      (by simpa [subIds] using hs.2)

theorem submit_order_pres (o : OrderU) (bk : Book) (x : Nat) (ho : idOfU o ≠ x) :
    dictLookup x (submit_order o bk).pending_market_orders =
      dictLookup x bk.pending_market_orders ∧
    (x ∈ keysOf (submit_order o bk).pending_limit_orders ↔
      x ∈ keysOf bk.pending_limit_orders) ∧
    (x ∈ keysOf (submit_order o bk).pending_stop_orders ↔
      x ∈ keysOf bk.pending_stop_orders) := by
  cases o with
  | market o =>
    refine ⟨dictLookup_dictInsert_ne o.order_id x o _ (fun e => ho e.symm),
      Iff.rfl, Iff.rfl⟩
  | limit o =>
    refine ⟨rfl, ?_, Iff.rfl⟩
    rw [show (submit_order (OrderU.limit o) bk).pending_limit_orders =
      dictInsert o.order_id o bk.pending_limit_orders from rfl]
    rw [mem_keysOf_dictInsert]
    simp only [idOfU] at ho
    constructor
    · rintro (e | e)
      · exact absurd e.symm ho
      · exact e
    · intro e; right; exact e
  | stop o =>
    refine ⟨rfl, Iff.rfl, ?_⟩
    rw [show (submit_order (OrderU.stop o) bk).pending_stop_orders =
      dictInsert o.order_id o bk.pending_stop_orders from rfl]
    rw [mem_keysOf_dictInsert]
    simp only [idOfU] at ho
    constructor
    · rintro (e | e)
      · exact absurd e.symm ho
      · exact e
    · intro e; right; exact e
  | base o => exact ⟨rfl, Iff.rfl, Iff.rfl⟩

theorem submitList_pres (x : Nat) : ∀ (os : List OrderU) (bk : Book),
    x ∉ subIds os →
    dictLookup x (submitList os bk).pending_market_orders =
      dictLookup x bk.pending_market_orders ∧
    (x ∈ keysOf (submitList os bk).pending_limit_orders ↔
      x ∈ keysOf bk.pending_limit_orders) ∧
    (x ∈ keysOf (submitList os bk).pending_stop_orders ↔
      x ∈ keysOf bk.pending_stop_orders) := by
  intro os
  induction os with
  | nil => intro bk _; exact ⟨rfl, Iff.rfl, Iff.rfl⟩
  | cons u rest ih =>
    intro bk hs
    simp only [subIds, List.map_cons, List.mem_cons] at hs
    push_neg at hs
    rw [submitList, List.foldl_cons]
    obtain ⟨e1, e2, e3⟩ :=
      submit_order_pres u bk x fun e => hs.1 e.symm
    obtain ⟨f1, f2, f3⟩ := ih (submit_order u bk) (by simpa [subIds] using hs.2)
    rw [submitList] at f1 f2 f3
    exact ⟨f1.trans e1, f2.trans e2, f3.trans e3⟩

theorem submitList_target (x : Nat) (o : MarketOrder) :
    ∀ (os : List OrderU) (bk : Book),
      x ∉ bookIds bk → OrderU.market o ∈ os → o.order_id = x →
      (subIds os).count x = 1 →
      dictLookup x (submitList os bk).pending_market_orders = some o ∧
      x ∉ keysOf (submitList os bk).pending_limit_orders ∧
      x ∉ keysOf (submitList os bk).pending_stop_orders := by
  intro os
  induction os with
  | nil =>
    intro bk _ hmem
    simp at hmem
  | cons u rest ih =>
    intro bk hx hmem ho hcount
    have hcount_cons : (subIds (u :: rest)).count x =
        (subIds rest).count x + if idOfU u = x then 1 else 0 := by
      simp [subIds, List.count_cons]
    by_cases hu : idOfU u = x
    · have hrest0 : (subIds rest).count x = 0 := by
        rw [hcount_cons] at hcount
        simp only [hu, if_true] at hcount
        omega
      have hxrest : x ∉ subIds rest := List.count_eq_zero.1 hrest0
      have huo : u = OrderU.market o := by
        rcases List.mem_cons.1 hmem with e | e
        · exact e.symm
        · exfalso
          apply hxrest
          have : idOfU (OrderU.market o) = x := by simp [idOfU, ho]
          rw [← this]
          exact List.mem_map_of_mem idOfU e
      subst huo
      rw [submitList, List.foldl_cons]
      have hins : dictLookup x
          (submit_order (OrderU.market o) bk).pending_market_orders = some o := by
        rw [show (submit_order (OrderU.market o) bk).pending_market_orders =
          dictInsert o.order_id o bk.pending_market_orders from rfl, ho]
        exact dictLookup_dictInsert_self x o _
      obtain ⟨f1, f2, f3⟩ :=
        submitList_pres x rest (submit_order (OrderU.market o) bk) hxrest
      rw [submitList] at f1 f2 f3
      simp only [bookIds, List.mem_append] at hx
      push_neg at hx
      refine ⟨f1.trans hins, ?_, ?_⟩
      · rw [f2]
        exact hx.1.2
      · rw [f3]
        exact hx.2
    · have hmem2 : OrderU.market o ∈ rest := by
        rcases List.mem_cons.1 hmem with e | e
        · exfalso
          apply hu
          rw [← e]
          simp [idOfU, ho]
        · exact e
      have hcount2 : (subIds rest).count x = 1 := by
        rw [hcount_cons] at hcount
        simp only [hu, if_false] at hcount
        omega
      rw [submitList, List.foldl_cons]
      have := ih (submit_order u bk) (submit_order_not_mem u bk x hx hu) hmem2 ho hcount2
      rw [submitList] at this
      exact this

end FLB

namespace FLB

theorem foldl_add_trade_book (cap : Nat) : ∀ (ts : List Trade) (s : FLState),
    (ts.foldl (fun acc t => add_trade cap t acc) s).book = s.book := by
  intro ts
  induction ts with
  | nil => intro s; rfl
  | cons t rest ih =>
    intro s
    rw [List.foldl_cons, ih]
    rfl

theorem backtestStep_trades (cap : Nat) (strategy : Row → List OrderU) (s : FLState)
    (r : Row) : (backtestStep cap strategy s r).1 = (process_orders r.toBar s.book).1 :=
  rfl

theorem backtestStep_book (cap : Nat) (strategy : Row → List OrderU) (s : FLState)
    (r : Row) : (backtestStep cap strategy s r).2.book =
      submitList (strategy r) (process_orders r.toBar s.book).2 := by
  show (submitList (strategy r) _) = _
  rw [foldl_add_trade_book]

theorem runSegs_nil (cap : Nat) (strategy : Row → List OrderU) (s : FLState) :
    runSegs cap strategy s [] = [] := rfl

theorem runSegs_cons (cap : Nat) (strategy : Row → List OrderU) (s : FLState)
    (r : Row) (rs : List Row) :
    runSegs cap strategy s (r :: rs) =
      (backtestStep cap strategy s r).1 ::
        runSegs cap strategy (backtestStep cap strategy s r).2 rs := rfl

theorem runState_nil (cap : Nat) (strategy : Row → List OrderU) (s : FLState) :
    runState cap strategy s [] = s := rfl

theorem runState_cons (cap : Nat) (strategy : Row → List OrderU) (s : FLState)
    (r : Row) (rs : List Row) :
    runState cap strategy s (r :: rs) =
      runState cap strategy (backtestStep cap strategy s r).2 rs := rfl

theorem runSegs_append (cap : Nat) (strategy : Row → List OrderU) :
    ∀ (xs ys : List Row) (s : FLState),
      runSegs cap strategy s (xs ++ ys) =
        runSegs cap strategy s xs ++
          runSegs cap strategy (runState cap strategy s xs) ys := by
  intro xs
  induction xs with
  | nil => intro ys s; rfl
  | cons r rest ih =>
    intro ys s
    rw [List.cons_append, runSegs_cons, runSegs_cons, runState_cons, ih, List.cons_append]

theorem runState_append (cap : Nat) (strategy : Row → List OrderU) :
    ∀ (xs ys : List Row) (s : FLState),
      runState cap strategy s (xs ++ ys) =
        runState cap strategy (runState cap strategy s xs) ys := by
  intro xs
  induction xs with
  | nil => intro ys s; rfl
  | cons r rest ih =>
    intro ys s
    rw [List.cons_append, runState_cons, runState_cons, ih]

theorem backtestStep_no_x (cap : Nat) (strategy : Row → List OrderU) (x : Nat)
    (s : FLState) (r : Row) (hwf : BookWF s.book) (hx : x ∉ bookIds s.book)
    (hs : x ∉ subIds (strategy r)) :
    (backtestStep cap strategy s r).1.filter (fun t => t.assoc_order_id = x) = [] ∧
      x ∉ bookIds (backtestStep cap strategy s r).2.book ∧
      BookWF (backtestStep cap strategy s r).2.book := by
  obtain ⟨h1, h2⟩ := process_orders_no_x r.toBar s.book x hwf hx
  refine ⟨by rw [backtestStep_trades]; exact h1, ?_, ?_⟩
  · rw [backtestStep_book]
    exact submitList_not_mem x _ _ h2 hs
  · rw [backtestStep_book]
    exact submitList_wf _ _ (process_orders_wf r.toBar s.book hwf)

theorem run_no_x (cap : Nat) (strategy : Row → List OrderU) (x : Nat) :
    ∀ (rows : List Row) (s : FLState), BookWF s.book → x ∉ bookIds s.book →
      (∀ r ∈ rows, x ∉ subIds (strategy r)) →
      (runSegs cap strategy s rows).flatten.filter (fun t => t.assoc_order_id = x) = [] ∧
        x ∉ bookIds (runState cap strategy s rows).book ∧
        BookWF (runState cap strategy s rows).book := by
  intro rows
  induction rows with
  | nil => intro s hwf hx _; exact ⟨rfl, hx, hwf⟩
  | cons r rest ih =>
    intro s hwf hx hstrat
    obtain ⟨h1, h2, h3⟩ := backtestStep_no_x cap strategy x s r hwf hx
      (hstrat r (List.mem_cons_self _ _))
    obtain ⟨g1, g2, g3⟩ := ih (backtestStep cap strategy s r).2 h3 h2
      (fun q hq => hstrat q (List.mem_cons_of_mem _ hq))
    rw [runSegs_cons, runState_cons]
    refine ⟨?_, g2, g3⟩
    rw [List.flatten_cons, List.filter_append, h1, g1]
    rfl

theorem process_orders_fill (b : Bar) (bk : Book) (x : Nat) (o : MarketOrder)
    (hwf : BookWF bk) (hl : dictLookup x bk.pending_market_orders = some o)
    (hxl : x ∉ keysOf bk.pending_limit_orders)
    (hxs : x ∉ keysOf bk.pending_stop_orders) :
    (∃ m, (process_orders b bk).1.filter (fun t => t.assoc_order_id = x) =
      [⟨m, b.ts_event, x, o.trade_direction, o.quantity, b.open_⟩]) ∧
      x ∉ bookIds (process_orders b bk).2 := by
  obtain ⟨l1, l2, he, -⟩ := dictLookup_eq_some_split x o _ hl
  have hnd := hwf.ndm
  rw [he] at hnd
  obtain ⟨hn1, hn2⟩ := nodup_keysOf_split x o l1 l2 hnd
  have ho : o.order_id = x := by
    have := hwf.km (x, o) (by rw [he]; simp)
    exact this
  have hk1 : ∀ p ∈ l1, p.2.order_id ≠ x :=
    keyfun_ne_of_not_mem (fun v : MarketOrder => v.order_id) x l1
      (fun p hp => hwf.km p (by rw [he]; simp [hp])) hn1
  have hk2 : ∀ p ∈ l2, p.2.order_id ≠ x :=
    keyfun_ne_of_not_mem (fun v : MarketOrder => v.order_id) x l2
      (fun p hp => hwf.km p (by rw [he]; simp [hp])) hn2
  constructor
  · obtain ⟨m, hm⟩ := marketPhase_filter_of_mem b x l1 x o l2 bk.nextTid hk1 hk2 ho
    refine ⟨m, ?_⟩
    simp only [process_orders, List.filter_append]
    rw [he, hm]
    rw [limitPhase_filter_of_not_mem b x _ _
        (keyfun_ne_of_not_mem (fun v : LimitOrder => v.order_id) x _ hwf.kl hxl),
      stopPhase_filter_of_not_mem b x _ _
        (keyfun_ne_of_not_mem (fun v : StopOrder => v.order_id) x _ hwf.ks hxs)]
    rfl
  · simp only [bookIds, List.mem_append, process_orders, limitPhase_pending_eq,
      stopPhase_pending_eq]
    push_neg
    refine ⟨⟨by simp [keysOf], ?_⟩, ?_⟩
    · exact not_mem_keysOf_filter _ x _ hxl
    · exact not_mem_keysOf_filter _ x _ hxs

end FLB

namespace CERP

theorem cerpMarketFills_spec (b : Bar) (fees pv : ℚ) :
    ∀ (l : List (Nat × MarketOrder)) (n : Nat),
      List.Forall₂ (fun (p : Nat × MarketOrder) (t : Trade) =>
        t.ts_event = b.ts_event ∧ t.associated_order_id = p.2.order_id ∧
        t.trade_direction = p.2.order_direction ∧ t.quantity = p.2.quantity ∧
        t.fill_at = b.open_ ∧ t.commission_and_fees = fees * p.2.quantity ∧
        t.fill_adjusted = (if p.2.order_direction = Side.BUY then b.open_ + fees / pv
          else b.open_ - fees / pv)) l (cerpMarketFills n b fees pv l).1 := by
  intro l
  induction l with
  | nil => intro n; exact List.Forall₂.nil
  | cons p rest ih =>
    intro n
    exact List.Forall₂.cons ⟨rfl, rfl, rfl, rfl, rfl, rfl, rfl⟩ (ih (n + 1))

theorem cerp_fee_fills (cb : Bar) (c : Contract) (cs : BTState) :
    ∃ cts cst, process_pending_orders cb (set_contract c cs) = Except.ok (cts, cst) ∧
      List.Forall₂ (fun (p : Nat × MarketOrder) (t : Trade) =>
        t.ts_event = cb.ts_event ∧ t.associated_order_id = p.2.order_id ∧
        t.trade_direction = p.2.order_direction ∧ t.quantity = p.2.quantity ∧
        t.fill_at = cb.open_ ∧
        t.commission_and_fees =
          (c.broker_commission_per_contract + c.exchange_fees_per_contract) *
            p.2.quantity ∧
        t.fill_adjusted = (if p.2.order_direction = Side.BUY
          then cb.open_ +
            (c.broker_commission_per_contract + c.exchange_fees_per_contract) /
              c.point_value
          else cb.open_ -
            (c.broker_commission_per_contract + c.exchange_fees_per_contract) /
              c.point_value)) cs.pending_market_orders cts ∧
      cst.pending_market_orders = [] := by
  refine ⟨_, _, rfl, ?_, rfl⟩
  exact cerpMarketFills_spec cb _ c.point_value cs.pending_market_orders cs.nextTid

end CERP

/-- C2: every pending market order fills exactly once, on the first bar
processed strictly after its submission, at the open price of that bar,
and is removed from the pending market-order dict at that moment; an
order submitted by the strategy callback during bar ri is never evaluated
against ri itself.  Formally: in a run over l1 ++ ri :: rj :: l2 in which
the order o with fresh id x is submitted exactly once, during the
callback of bar ri, no trade referencing x exists up to and including
bar ri, the whole run produces exactly one trade referencing x, and the
order processing of rj (the first bar after submission) produces that
trade at fill price rj.open_ and removes x from the pending dict.  In the
fee-aware variant, with any contract configured, every pending market
order fills at the bar open with the fee-adjusted price equal to open
plus (total per-unit fee divided by point_value) for BUY and open minus
that quotient for SELL, and the pending market dict is emptied. -/
theorem c2_market_order_fills_on_first_next_bar
    (cap : Nat) (strategy : FLB.Row → List FLB.OrderU) (s0 : FLB.FLState)
    (l1 l2 : List FLB.Row) (ri rj : FLB.Row) (x : Nat) (o : FLB.MarketOrder)
    (hwf : FLB.BookWF s0.book)
    (h0 : x ∉ FLB.bookIds s0.book)
    (h1 : ∀ r ∈ l1, x ∉ FLB.subIds (strategy r))
    (hmem : FLB.OrderU.market o ∈ strategy ri)
    (hid : o.order_id = x)
    (honce : (FLB.subIds (strategy ri)).count x = 1)
    (h3 : x ∉ FLB.subIds (strategy rj))
    (h4 : ∀ r ∈ l2, x ∉ FLB.subIds (strategy r))
    (cb : Bar) (c : CERP.Contract) (cs : CERP.BTState) :
    FLB.countAssoc x (FLB.runSegs cap strategy s0 (l1 ++ ri :: rj :: l2)).flatten = 1 ∧
    FLB.countAssoc x (FLB.runSegs cap strategy s0 (l1 ++ [ri])).flatten = 0 ∧
    (∃ m, (FLB.process_orders rj.toBar
          (FLB.runState cap strategy s0 (l1 ++ [ri])).book).1.filter
        (fun t => t.assoc_order_id = x) =
        [⟨m, rj.ts_event, x, o.trade_direction, o.quantity, rj.open_⟩] ∧
      x ∉ keysOf (FLB.process_orders rj.toBar
          (FLB.runState cap strategy s0 (l1 ++ [ri])).book).2.pending_market_orders) ∧
    (∃ cts cst, CERP.process_pending_orders cb (CERP.set_contract c cs) =
        Except.ok (cts, cst) ∧
      List.Forall₂ (fun (p : Nat × CERP.MarketOrder) (t : CERP.Trade) =>
        t.ts_event = cb.ts_event ∧ t.associated_order_id = p.2.order_id ∧
        t.trade_direction = p.2.order_direction ∧ t.quantity = p.2.quantity ∧
        t.fill_at = cb.open_ ∧
        t.commission_and_fees =
          (c.broker_commission_per_contract + c.exchange_fees_per_contract) *
            p.2.quantity ∧
        t.fill_adjusted = (if p.2.order_direction = CERP.Side.BUY
          then cb.open_ +
            (c.broker_commission_per_contract + c.exchange_fees_per_contract) /
              c.point_value
          else cb.open_ -
            (c.broker_commission_per_contract + c.exchange_fees_per_contract) /
              c.point_value)) cs.pending_market_orders cts ∧
      cst.pending_market_orders = []) := by
  obtain ⟨hA1, hA2, hA3⟩ := FLB.run_no_x cap strategy x l1 s0 hwf h0 h1
  have hpoi := FLB.process_orders_no_x ri.toBar
    (FLB.runState cap strategy s0 l1).book x hA3 hA2
  obtain ⟨hpoi1, hpoi2⟩ := hpoi
  have hbookB := FLB.backtestStep_book cap strategy (FLB.runState cap strategy s0 l1) ri
  obtain ⟨ht1, ht2, ht3⟩ := FLB.submitList_target x o (strategy ri) _ hpoi2 hmem hid honce
  have hlook : dictLookup x (FLB.backtestStep cap strategy
      (FLB.runState cap strategy s0 l1) ri).2.book.pending_market_orders = some o := by
    rw [hbookB]; exact ht1
  have hkl : x ∉ keysOf (FLB.backtestStep cap strategy
      (FLB.runState cap strategy s0 l1) ri).2.book.pending_limit_orders := by
    rw [hbookB]; exact ht2
  have hks : x ∉ keysOf (FLB.backtestStep cap strategy
      (FLB.runState cap strategy s0 l1) ri).2.book.pending_stop_orders := by
    rw [hbookB]; exact ht3
  have hwfB : FLB.BookWF (FLB.backtestStep cap strategy
      (FLB.runState cap strategy s0 l1) ri).2.book := by
    rw [hbookB]
    exact FLB.submitList_wf _ _ (FLB.process_orders_wf _ _ hA3)
  have hsB_eq : FLB.runState cap strategy s0 (l1 ++ [ri]) =
      (FLB.backtestStep cap strategy (FLB.runState cap strategy s0 l1) ri).2 := by
    rw [FLB.runState_append]; rfl
  have hsegsi : (FLB.runSegs cap strategy (FLB.runState cap strategy s0 l1) [ri]).flatten =
      (FLB.backtestStep cap strategy (FLB.runState cap strategy s0 l1) ri).1 := by
    rw [FLB.runSegs_cons, FLB.runSegs_nil, List.flatten_cons]
    simp
  have hb : FLB.countAssoc x (FLB.runSegs cap strategy s0 (l1 ++ [ri])).flatten = 0 := by
    simp only [FLB.countAssoc]
    rw [FLB.runSegs_append, List.flatten_append, List.filter_append, hA1, hsegsi,
      FLB.backtestStep_trades, hpoi1]
    rfl
  obtain ⟨⟨m, hmfill⟩, hafterj⟩ := FLB.process_orders_fill rj.toBar
    (FLB.backtestStep cap strategy (FLB.runState cap strategy s0 l1) ri).2.book x o
    hwfB hlook hkl hks
  have hbookC := FLB.backtestStep_book cap strategy
    (FLB.backtestStep cap strategy (FLB.runState cap strategy s0 l1) ri).2 rj
  have hxC : x ∉ FLB.bookIds (FLB.backtestStep cap strategy
      (FLB.backtestStep cap strategy (FLB.runState cap strategy s0 l1) ri).2 rj).2.book := by
    rw [hbookC]
    exact FLB.submitList_not_mem x _ _ hafterj h3
  have hwfC : FLB.BookWF (FLB.backtestStep cap strategy
      (FLB.backtestStep cap strategy (FLB.runState cap strategy s0 l1) ri).2 rj).2.book := by
    rw [hbookC]
    exact FLB.submitList_wf _ _ (FLB.process_orders_wf _ _ hwfB)
  obtain ⟨hrest1, -, -⟩ := FLB.run_no_x cap strategy x l2 _ hwfC hxC h4
  refine ⟨?_, hb, ⟨m, ?_, ?_⟩, CERP.cerp_fee_fills cb c cs⟩
  · simp only [FLB.countAssoc]
    rw [FLB.runSegs_append, List.flatten_append, List.filter_append, hA1,
      FLB.runSegs_cons, FLB.runSegs_cons, List.flatten_cons, List.flatten_cons,
      List.filter_append, List.filter_append, FLB.backtestStep_trades, hpoi1,
      FLB.backtestStep_trades, hmfill, hrest1]
    rfl
  · rw [hsB_eq]
    exact hmfill
  · rw [hsB_eq]
    intro hmemx
    apply hafterj
    simp only [FLB.bookIds, List.mem_append]
    left; left
    exact hmemx

/-- Witness for C2: the two-bar scenario instantiates every hypothesis,
and the conclusion evaluates on it. -/
theorem c2_market_order_fills_on_first_next_bar_witness :
    (FLB.OrderU.market ⟨⟨7, 1, FLB.TradeDirection.BUY, 1⟩⟩ ∈
      exStrategy ⟨exBar1, 0⟩) ∧
    (FLB.subIds (exStrategy ⟨exBar1, 0⟩)).count 7 = 1 ∧
    (FLB.countAssoc 7 (FLB.runSegs 1000 exStrategy exState0
        ([] ++ ⟨exBar1, 0⟩ :: ⟨exBar2, 0⟩ :: [])).flatten = 1 ∧
      FLB.countAssoc 7
        (FLB.runSegs 1000 exStrategy exState0 ([] ++ [⟨exBar1, 0⟩])).flatten = 0 ∧
      (∃ m, (FLB.process_orders exBar2
            (FLB.runState 1000 exStrategy exState0 ([] ++ [⟨exBar1, 0⟩])).book).1.filter
          (fun t => t.assoc_order_id = 7) =
          [⟨m, 2, 7, FLB.TradeDirection.BUY, 1, 102⟩] ∧
        7 ∉ keysOf (FLB.process_orders exBar2
            (FLB.runState 1000 exStrategy exState0
              ([] ++ [⟨exBar1, 0⟩])).book).2.pending_market_orders) ∧
      (∃ cts cst, CERP.process_pending_orders exBar1
          (CERP.set_contract exContract exCerpState) = Except.ok (cts, cst) ∧
        List.Forall₂ (fun (p : Nat × CERP.MarketOrder) (t : CERP.Trade) =>
          t.ts_event = 1 ∧ t.associated_order_id = p.2.order_id ∧
          t.trade_direction = p.2.order_direction ∧ t.quantity = p.2.quantity ∧
          t.fill_at = 100 ∧
          t.commission_and_fees = (1 + 1) * p.2.quantity ∧
          t.fill_adjusted = (if p.2.order_direction = CERP.Side.BUY
            then 100 + (1 + 1) / 2 else 100 - (1 + 1) / 2))
          exCerpState.pending_market_orders cts ∧
        cst.pending_market_orders = [])) :=
  ⟨by decide, by decide,
    c2_market_order_fills_on_first_next_bar 1000 exStrategy exState0 [] []
      ⟨exBar1, 0⟩ ⟨exBar2, 0⟩ 7 ⟨⟨7, 1, FLB.TradeDirection.BUY, 1⟩⟩
      ⟨by decide, by decide, by decide, by decide, by decide, by decide⟩
      (by decide) (by decide) (by decide) (by decide) (by decide) (by decide)
      (by decide) exBar1 exContract exCerpState⟩

namespace CERP

theorem cerpMarketFills_assoc_mem (b : Bar) (fees pv : ℚ) :
    ∀ (l : List (Nat × MarketOrder)) (n : Nat),
      ∀ t ∈ (cerpMarketFills n b fees pv l).1,
        t.associated_order_id ∈ l.map fun p => p.2.order_id := by
  intro l
  induction l with
  | nil => intro n t ht; simp [cerpMarketFills] at ht
  | cons p rest ih =>
    intro n t ht
    simp only [cerpMarketFills, List.mem_cons] at ht
    rcases ht with e | e
    · subst e
      simp
    · simp only [List.map_cons, List.mem_cons]
      right
      exact ih (n + 1) t e

end CERP

namespace FLB

theorem process_orders_limit_case (b : Bar) (bk : Book) (k : Nat) (o : LimitOrder)
    (hwf : BookWF bk) (hl : dictLookup k bk.pending_limit_orders = some o)
    (hkm : k ∉ keysOf bk.pending_market_orders)
    (hks : k ∉ keysOf bk.pending_stop_orders) :
    (limitCond b o →
      ∃ m, (process_orders b bk).1.filter (fun t => t.assoc_order_id = k) =
        [⟨m, b.ts_event, k, o.trade_direction, o.quantity, o.limit_price⟩] ∧
      k ∉ keysOf (process_orders b bk).2.pending_limit_orders) ∧
    (¬ limitCond b o →
      (process_orders b bk).1.filter (fun t => t.assoc_order_id = k) = [] ∧
      dictLookup k (process_orders b bk).2.pending_limit_orders = some o) := by
  obtain ⟨l1, l2, he, -⟩ := dictLookup_eq_some_split k o _ hl
  have hnd := hwf.ndl
  rw [he] at hnd
  obtain ⟨hn1, hn2⟩ := nodup_keysOf_split k o l1 l2 hnd
  have ho : o.order_id = k := hwf.kl (k, o) (by rw [he]; simp)
  have hk1 : ∀ p ∈ l1, p.2.order_id ≠ k :=
    keyfun_ne_of_not_mem (fun v : LimitOrder => v.order_id) k l1
      (fun p hp => hwf.kl p (by rw [he]; simp [hp])) hn1
  have hk2 : ∀ p ∈ l2, p.2.order_id ≠ k :=
    keyfun_ne_of_not_mem (fun v : LimitOrder => v.order_id) k l2
      (fun p hp => hwf.kl p (by rw [he]; simp [hp])) hn2
  have hmf : (marketPhase bk.nextTid b bk.pending_market_orders).1.filter
      (fun t => t.assoc_order_id = k) = [] :=
    marketPhase_filter_of_not_mem b k _ _
      (keyfun_ne_of_not_mem (fun v : MarketOrder => v.order_id) k _ hwf.km hkm)
  constructor
  · intro hc
    obtain ⟨m, hm⟩ := limitPhase_filter_of_mem_cond b k l1 k o l2
      (marketPhase bk.nextTid b bk.pending_market_orders).2 hk1 hk2 ho hc
    refine ⟨m, ?_, ?_⟩
    · simp only [process_orders, List.filter_append]
      rw [hmf]
      rw [he, hm]
      rw [stopPhase_filter_of_not_mem b k _ _
          (keyfun_ne_of_not_mem (fun v : StopOrder => v.order_id) k _ hwf.ks hks)]
      rfl
    · simp only [process_orders, limitPhase_pending_eq]
      exact not_mem_keysOf_filter_of_lookup _ k o _ hwf.ndl hl (by simp [hc])
  · intro hc
    constructor
    · simp only [process_orders, List.filter_append]
      rw [hmf]
      rw [he, limitPhase_filter_of_mem_not_cond b k l1 k o l2 _ hk1 hk2 hc]
      rw [stopPhase_filter_of_not_mem b k _ _
          (keyfun_ne_of_not_mem (fun v : StopOrder => v.order_id) k _ hwf.ks hks)]
      rfl
    · simp only [process_orders, limitPhase_pending_eq]
      exact dictLookup_filter_of_lookup _ k o _ hl (by simp [hc])

end FLB

/-- Counterexample to C3 as stated: in the fee-aware variant the pending
limit loop is a literal pass, so a pending BUY limit order whose limit
price (100) is at or above the bar low (99) produces no trade and stays
pending when the bar is processed: with the contract configured, per-bar
processing returns the empty trade list and an unchanged state, refuting
the only-if-free reading that a BUY limit fills whenever
limit_price >= bar.low. -/
theorem c3_counterexample_cerp_limit_stub :
    exCerpLimit.order_direction = CERP.Side.BUY ∧
    exCerpLimit.limit_price ≥ exBar1.low ∧
    CERP.process_pending_orders exBar1 exCerpLimitState =
      Except.ok ([], exCerpLimitState) :=
  ⟨rfl, by decide, rfl⟩

/-- C3 (amended): in the flbacktester engine the original claim holds
verbatim: for a pending limit order evaluated against a bar, a BUY fills
if and only if limit_price >= bar.low and a SELL fills if and only if
limit_price <= bar.high, the fill price equals the limit price exactly,
the order is removed from the pending limit dict exactly when it fills
and otherwise stays pending unchanged.  In the fee-aware (cerp) variant
the pending limit loop is an unimplemented stub: limit orders never fill
and are never removed; every produced trade references a pending market
order.  The hypotheses are the source invariants: a well-formed book and
an order id unique across the three dicts. -/
theorem c3_limit_order_fill_rule
    (b : Bar) (bk : FLB.Book) (k : Nat) (o : FLB.LimitOrder)
    (hwf : FLB.BookWF bk)
    (hl : dictLookup k bk.pending_limit_orders = some o)
    (hkm : k ∉ keysOf bk.pending_market_orders)
    (hks : k ∉ keysOf bk.pending_stop_orders)
    (cb : Bar) (c : CERP.Contract) (cs : CERP.BTState) :
    ((∃ t ∈ (FLB.process_orders b bk).1, t.assoc_order_id = k) ↔
      ((o.trade_direction = FLB.TradeDirection.BUY ∧ o.limit_price ≥ b.low) ∨
        (o.trade_direction = FLB.TradeDirection.SELL ∧ o.limit_price ≤ b.high))) ∧
    (FLB.limitCond b o →
      ∃ m, (FLB.process_orders b bk).1.filter (fun t => t.assoc_order_id = k) =
        [⟨m, b.ts_event, k, o.trade_direction, o.quantity, o.limit_price⟩] ∧
      k ∉ keysOf (FLB.process_orders b bk).2.pending_limit_orders) ∧
    (¬ FLB.limitCond b o →
      (FLB.process_orders b bk).1.filter (fun t => t.assoc_order_id = k) = [] ∧
      dictLookup k (FLB.process_orders b bk).2.pending_limit_orders = some o) ∧
    (∃ cts cst, CERP.process_pending_orders cb (CERP.set_contract c cs) =
        Except.ok (cts, cst) ∧
      cst.pending_limit_orders = cs.pending_limit_orders ∧
      ∀ t ∈ cts, t.associated_order_id ∈
        cs.pending_market_orders.map fun p => p.2.order_id) := by
  obtain ⟨hpos, hneg⟩ := FLB.process_orders_limit_case b bk k o hwf hl hkm hks
  refine ⟨?_, hpos, hneg, ?_⟩
  · constructor
    · rintro ⟨t, ht, hak⟩
      by_cases hc : FLB.limitCond b o
      · exact hc
      · exfalso
        obtain ⟨hfe, -⟩ := hneg hc
        have hmem : t ∈ (FLB.process_orders b bk).1.filter
            (fun t => t.assoc_order_id = k) :=
          List.mem_filter.2 ⟨ht, by simpa using hak⟩
        rw [hfe] at hmem
        simp at hmem
    · intro hdisj
      obtain ⟨m, hm, -⟩ := hpos hdisj
      refine ⟨⟨m, b.ts_event, k, o.trade_direction, o.quantity, o.limit_price⟩, ?_, rfl⟩
      have hmem : (⟨m, b.ts_event, k, o.trade_direction, o.quantity,
          o.limit_price⟩ : FLB.Trade) ∈
          (FLB.process_orders b bk).1.filter (fun t => t.assoc_order_id = k) := by
        rw [hm]
        exact List.mem_singleton_self _
      exact List.mem_of_mem_filter hmem
  · refine ⟨_, _, rfl, rfl, ?_⟩
    intro t ht
    exact CERP.cerpMarketFills_assoc_mem cb _ _ _ _ t ht

/-- Witness for C3: the BUY limit order with limit 100 against the bar
with low 99 fills at exactly 100 and is removed; the hypotheses hold for
the concrete one-order book. -/
theorem c3_limit_order_fill_rule_witness :
    dictLookup 1 exLBook.pending_limit_orders = some exLO ∧
    (((∃ t ∈ (FLB.process_orders exBar1 exLBook).1, t.assoc_order_id = 1) ↔
      ((exLO.trade_direction = FLB.TradeDirection.BUY ∧
          exLO.limit_price ≥ exBar1.low) ∨
        (exLO.trade_direction = FLB.TradeDirection.SELL ∧
          exLO.limit_price ≤ exBar1.high))) ∧
    (FLB.limitCond exBar1 exLO →
      ∃ m, (FLB.process_orders exBar1 exLBook).1.filter
          (fun t => t.assoc_order_id = 1) =
        [⟨m, exBar1.ts_event, 1, exLO.trade_direction, exLO.quantity,
          exLO.limit_price⟩] ∧
      1 ∉ keysOf (FLB.process_orders exBar1 exLBook).2.pending_limit_orders) ∧
    (¬ FLB.limitCond exBar1 exLO →
      (FLB.process_orders exBar1 exLBook).1.filter
        (fun t => t.assoc_order_id = 1) = [] ∧
      dictLookup 1 (FLB.process_orders exBar1 exLBook).2.pending_limit_orders =
        some exLO) ∧
    (∃ cts cst, CERP.process_pending_orders exBar1
        (CERP.set_contract exContract exCerpState) = Except.ok (cts, cst) ∧
      cst.pending_limit_orders = exCerpState.pending_limit_orders ∧
      ∀ t ∈ cts, t.associated_order_id ∈
        exCerpState.pending_market_orders.map fun p => p.2.order_id)) :=
  ⟨by decide,
    c3_limit_order_fill_rule exBar1 exLBook 1 exLO
      ⟨by decide, by decide, by decide, by decide, by decide, by decide⟩
      (by decide) (by decide) (by decide) exBar1 exContract exCerpState⟩

namespace FLB

theorem process_orders_stop_case (b : Bar) (bk : Book) (k : Nat) (o : StopOrder)
    (hwf : BookWF bk) (hl : dictLookup k bk.pending_stop_orders = some o)
    (hkm : k ∉ keysOf bk.pending_market_orders)
    (hkl : k ∉ keysOf bk.pending_limit_orders) :
    (stopCond b o →
      ∃ m, (process_orders b bk).1.filter (fun t => t.assoc_order_id = k) =
        [⟨m, b.ts_event, k, o.trade_direction, o.quantity, stopFillPrice b o⟩] ∧
      k ∉ keysOf (process_orders b bk).2.pending_stop_orders) ∧
    (¬ stopCond b o →
      (process_orders b bk).1.filter (fun t => t.assoc_order_id = k) = [] ∧
      dictLookup k (process_orders b bk).2.pending_stop_orders = some o) := by
  obtain ⟨l1, l2, he, -⟩ := dictLookup_eq_some_split k o _ hl
  have hnd := hwf.nds
  rw [he] at hnd
  obtain ⟨hn1, hn2⟩ := nodup_keysOf_split k o l1 l2 hnd
  have ho : o.order_id = k := hwf.ks (k, o) (by rw [he]; simp)
  have hk1 : ∀ p ∈ l1, p.2.order_id ≠ k :=
    keyfun_ne_of_not_mem (fun v : StopOrder => v.order_id) k l1
      (fun p hp => hwf.ks p (by rw [he]; simp [hp])) hn1
  have hk2 : ∀ p ∈ l2, p.2.order_id ≠ k :=
    keyfun_ne_of_not_mem (fun v : StopOrder => v.order_id) k l2
      (fun p hp => hwf.ks p (by rw [he]; simp [hp])) hn2
  have hmf : (marketPhase bk.nextTid b bk.pending_market_orders).1.filter
      (fun t => t.assoc_order_id = k) = [] :=
    marketPhase_filter_of_not_mem b k _ _
      (keyfun_ne_of_not_mem (fun v : MarketOrder => v.order_id) k _ hwf.km hkm)
  have hlf : (limitPhase (marketPhase bk.nextTid b bk.pending_market_orders).2 b
      bk.pending_limit_orders).1.filter (fun t => t.assoc_order_id = k) = [] :=
    limitPhase_filter_of_not_mem b k _ _
      (keyfun_ne_of_not_mem (fun v : LimitOrder => v.order_id) k _ hwf.kl hkl)
  constructor
  · intro hc
    obtain ⟨m, hm⟩ := stopPhase_filter_of_mem_cond b k l1 k o l2
      (limitPhase (marketPhase bk.nextTid b bk.pending_market_orders).2 b
        bk.pending_limit_orders).2.2 hk1 hk2 ho hc
    refine ⟨m, ?_, ?_⟩
    · simp only [process_orders, List.filter_append]
      rw [hmf, hlf, he, hm]
      rfl
    · simp only [process_orders, stopPhase_pending_eq]
      exact not_mem_keysOf_filter_of_lookup _ k o _ hwf.nds hl (by simp [hc])
  · intro hc
    constructor
    · simp only [process_orders, List.filter_append]
      rw [hmf, hlf, he, stopPhase_filter_of_mem_not_cond b k l1 k o l2 _ hk1 hk2 hc]
      rfl
    · simp only [process_orders, stopPhase_pending_eq]
      exact dictLookup_filter_of_lookup _ k o _ hl (by simp [hc])

end FLB

/-- Counterexample to C4 as stated: in the fee-aware variant the pending
stop loop is a literal pass, so a pending BUY stop order whose stop price
(100) is at or below the bar high (101) produces no trade and stays
pending when the bar is processed, refuting the reading that a BUY stop
triggers whenever bar.high >= stop_price. -/
theorem c4_counterexample_cerp_stop_stub :
    exCerpStop.order_direction = CERP.Side.BUY ∧
    exBar1.high ≥ exCerpStop.stop_price ∧
    CERP.process_pending_orders exBar1 exCerpStopState =
      Except.ok ([], exCerpStopState) :=
  ⟨rfl, by decide, rfl⟩

/-- C4 (amended): in the flbacktester engine the original claim holds
verbatim: for a pending stop order evaluated against a bar, a BUY
triggers if and only if bar.high >= stop_price and a SELL triggers if
and only if bar.low <= stop_price; on trigger the fill price is
max(stop_price, bar.open) for BUY and min(stop_price, bar.open) for
SELL, and the order is removed from the pending stop dict exactly when
it triggers, otherwise staying pending unchanged.  In the fee-aware
(cerp) variant the pending stop loop is an unimplemented stub: stop
orders never trigger and are never removed; every produced trade
references a pending market order. -/
theorem c4_stop_order_trigger_rule
    (b : Bar) (bk : FLB.Book) (k : Nat) (o : FLB.StopOrder)
    (hwf : FLB.BookWF bk)
    (hl : dictLookup k bk.pending_stop_orders = some o)
    (hkm : k ∉ keysOf bk.pending_market_orders)
    (hkl : k ∉ keysOf bk.pending_limit_orders)
    (cb : Bar) (c : CERP.Contract) (cs : CERP.BTState) :
    ((∃ t ∈ (FLB.process_orders b bk).1, t.assoc_order_id = k) ↔
      ((o.trade_direction = FLB.TradeDirection.BUY ∧ b.high ≥ o.stop_price) ∨
        (o.trade_direction = FLB.TradeDirection.SELL ∧ b.low ≤ o.stop_price))) ∧
    (FLB.stopCond b o →
      ∃ m, (FLB.process_orders b bk).1.filter (fun t => t.assoc_order_id = k) =
        [⟨m, b.ts_event, k, o.trade_direction, o.quantity,
          if o.trade_direction = FLB.TradeDirection.BUY
          then max o.stop_price b.open_ else min o.stop_price b.open_⟩] ∧
      k ∉ keysOf (FLB.process_orders b bk).2.pending_stop_orders) ∧
    (¬ FLB.stopCond b o →
      (FLB.process_orders b bk).1.filter (fun t => t.assoc_order_id = k) = [] ∧
      dictLookup k (FLB.process_orders b bk).2.pending_stop_orders = some o) ∧
    (∃ cts cst, CERP.process_pending_orders cb (CERP.set_contract c cs) =
        Except.ok (cts, cst) ∧
      cst.pending_stop_orders = cs.pending_stop_orders ∧
      ∀ t ∈ cts, t.associated_order_id ∈
        cs.pending_market_orders.map fun p => p.2.order_id) := by
  obtain ⟨hpos, hneg⟩ := FLB.process_orders_stop_case b bk k o hwf hl hkm hkl
  refine ⟨?_, hpos, hneg, ?_⟩
  · constructor
    · rintro ⟨t, ht, hak⟩
      by_cases hc : FLB.stopCond b o
      · exact hc
      · exfalso
        obtain ⟨hfe, -⟩ := hneg hc
        have hmem : t ∈ (FLB.process_orders b bk).1.filter
            (fun t => t.assoc_order_id = k) :=
          List.mem_filter.2 ⟨ht, by simpa using hak⟩
        rw [hfe] at hmem
        simp at hmem
    · intro hdisj
      obtain ⟨m, hm, -⟩ := hpos hdisj
      refine ⟨⟨m, b.ts_event, k, o.trade_direction, o.quantity,
        FLB.stopFillPrice b o⟩, ?_, rfl⟩
      have hmem : (⟨m, b.ts_event, k, o.trade_direction, o.quantity,
          FLB.stopFillPrice b o⟩ : FLB.Trade) ∈
          (FLB.process_orders b bk).1.filter (fun t => t.assoc_order_id = k) := by
        rw [hm]
        exact List.mem_singleton_self _
      exact List.mem_of_mem_filter hmem
  · refine ⟨_, _, rfl, rfl, ?_⟩
    intro t ht
    exact CERP.cerpMarketFills_assoc_mem cb _ _ _ _ t ht

/-- Witness for C4: the SELL stop order with stop 100 against the bar
with low 99 and open 100 triggers and fills at min(100, 100) = 100. -/
theorem c4_stop_order_trigger_rule_witness :
    dictLookup 1 exSBook.pending_stop_orders = some exSO ∧
    (((∃ t ∈ (FLB.process_orders exBar1 exSBook).1, t.assoc_order_id = 1) ↔
      ((exSO.trade_direction = FLB.TradeDirection.BUY ∧
          exBar1.high ≥ exSO.stop_price) ∨
        (exSO.trade_direction = FLB.TradeDirection.SELL ∧
          exBar1.low ≤ exSO.stop_price))) ∧
    (FLB.stopCond exBar1 exSO →
      ∃ m, (FLB.process_orders exBar1 exSBook).1.filter
          (fun t => t.assoc_order_id = 1) =
        [⟨m, exBar1.ts_event, 1, exSO.trade_direction, exSO.quantity,
          if exSO.trade_direction = FLB.TradeDirection.BUY
          then max exSO.stop_price exBar1.open_
          else min exSO.stop_price exBar1.open_⟩] ∧
      1 ∉ keysOf (FLB.process_orders exBar1 exSBook).2.pending_stop_orders) ∧
    (¬ FLB.stopCond exBar1 exSO →
      (FLB.process_orders exBar1 exSBook).1.filter
        (fun t => t.assoc_order_id = 1) = [] ∧
      dictLookup 1 (FLB.process_orders exBar1 exSBook).2.pending_stop_orders =
        some exSO) ∧
    (∃ cts cst, CERP.process_pending_orders exBar1
        (CERP.set_contract exContract exCerpState) = Except.ok (cts, cst) ∧
      cst.pending_stop_orders = exCerpState.pending_stop_orders ∧
      ∀ t ∈ cts, t.associated_order_id ∈
        exCerpState.pending_market_orders.map fun p => p.2.order_id)) :=
  ⟨by decide,
    c4_stop_order_trigger_rule exBar1 exSBook 1 exSO
      ⟨by decide, by decide, by decide, by decide, by decide, by decide⟩
      (by decide) (by decide) (by decide) exBar1 exContract exCerpState⟩

/-- C1 (defect evaluation): backtest ends without flushing the trade
buffer.  In the two-bar scenario the single trade filled at bar 2 is
still sitting in the in-memory buffer when the run ends and the durable
executed_trades table is empty, because the body of backtest is just the
bar loop with no final _flush_trade_buffer call.  The last two conjuncts
show the trade is not lost by the buffering itself: at capacity 1 the
capacity-triggered flush persists it, and a single flush of the final
state would move it into the durable table. -/
theorem c1_final_flush_missing :
    (FLB.backtest 1000 exStrategy exState0).2.2.ledger.executed_trades = [] ∧
    (FLB.backtest 1000 exStrategy exState0).2.2.ledger.trade_buffer = [exTrade] ∧
    (FLB.backtest 1 exStrategy exState0).2.2.ledger.executed_trades = [exTrade] ∧
    FLB.flush_trade_buffer (FLB.backtest 1000 exStrategy exState0).2.2.ledger =
      ⟨[], [exTrade]⟩ := by
  refine ⟨?_, ?_, ?_, ?_⟩ <;> decide

/-- C5 (defect evaluation): the rows handed to the strategy callback are
the df.iterrows() snapshot taken before the loop starts, so the position
the strategy observes never reflects any fill.  In the two-bar scenario
the market order submitted during bar 1 fills during the order
processing of bar 2 (segments [[], [exTrade]], signed sum 1), and the
live dataframe position column does carry 1 on the bar-2 row after that
processing, yet the row handed to the strategy callback on bar 2 carries
position 0. -/
theorem c5_strategy_observes_stale_position :
    (FLB.backtest 1000 exStrategy exState0).2.1 = [⟨exBar1, 0⟩, ⟨exBar2, 0⟩] ∧
    (FLB.backtest 1000 exStrategy exState0).1 = [[], [exTrade]] ∧
    FLB.signedSum [exTrade] = 1 ∧
    (FLB.backtest 1000 exStrategy exState0).2.2.df = [⟨exBar1, 0⟩, ⟨exBar2, 1⟩] := by
  refine ⟨by decide, by decide, ?_, ?_⟩
  · calc FLB.signedSum [exTrade] = (1 : ℚ) + 0 := rfl
      _ = 1 := by norm_num
  · calc (FLB.backtest 1000 exStrategy exState0).2.2.df
        = [⟨exBar1, 0⟩, ⟨exBar2, (0 : ℚ) + 1⟩] := rfl
      _ = [⟨exBar1, 0⟩, ⟨exBar2, 1⟩] := by
        rw [show ((0 : ℚ) + 1) = 1 from by norm_num]

/-- C10: an order value that is an instance of none of MarketOrder,
LimitOrder and StopOrder (a bare OrderBase) falls through every
isinstance branch of submit_order in both variants: nothing is inserted,
no error is raised (the function is total) and the state is returned
unchanged. -/
theorem c10_bare_order_base_silently_ignored :
    (∀ (bk : FLB.Book) (ob : FLB.OrderBase),
      FLB.submit_order (FLB.OrderU.base ob) bk = bk) ∧
    (∀ (cs : CERP.BTState) (ob : CERP.OrderBase),
      CERP.submit_order (CERP.COrderU.base ob) cs = cs) :=
  ⟨fun _ _ => rfl, fun _ _ => rfl⟩

/-- Counterexample to C6 as stated: submitting a market order whose id 1
is already present in the pending market dict does not fail (submit_order
is total, there is no duplicate check in either variant) and does not
leave the collections unchanged: the stored order of quantity 5 is
silently overwritten by the new order of quantity 7. -/
theorem c6_counterexample_silent_overwrite :
    FLB.submit_order (FLB.OrderU.market exMO7) exBook1 =
      FLB.Book.mk [(1, exMO7)] [] [] 0 ∧
    (FLB.submit_order (FLB.OrderU.market exMO7) exBook1).pending_market_orders ≠
      exBook1.pending_market_orders ∧
    dictLookup 1
      (FLB.submit_order (FLB.OrderU.market exMO7) exBook1).pending_market_orders =
      some exMO7 := by
  refine ⟨?_, ?_, ?_⟩ <;> decide

/-- C6 (amended): submit_order never raises on a duplicate id; in both
variants an order whose id already exists in the dict of its own kind
silently replaces the stored order in place, every other key of that
dict is untouched, and the dicts of the other kinds are untouched (an id
may therefore also coexist across the three dicts). -/
theorem c6_submit_order_overwrites_silently
    (bk : FLB.Book) (mo : FLB.MarketOrder) (lo : FLB.LimitOrder)
    (so : FLB.StopOrder) (cbk : CERP.BTState) (cmo : CERP.MarketOrder) :
    (dictLookup mo.order_id
        (FLB.submit_order (FLB.OrderU.market mo) bk).pending_market_orders =
        some mo ∧
      (∀ j, j ≠ mo.order_id →
        dictLookup j
          (FLB.submit_order (FLB.OrderU.market mo) bk).pending_market_orders =
        dictLookup j bk.pending_market_orders) ∧
      (FLB.submit_order (FLB.OrderU.market mo) bk).pending_limit_orders =
        bk.pending_limit_orders ∧
      (FLB.submit_order (FLB.OrderU.market mo) bk).pending_stop_orders =
        bk.pending_stop_orders) ∧
    (dictLookup lo.order_id
        (FLB.submit_order (FLB.OrderU.limit lo) bk).pending_limit_orders =
        some lo ∧
      (∀ j, j ≠ lo.order_id →
        dictLookup j
          (FLB.submit_order (FLB.OrderU.limit lo) bk).pending_limit_orders =
        dictLookup j bk.pending_limit_orders) ∧
      (FLB.submit_order (FLB.OrderU.limit lo) bk).pending_market_orders =
        bk.pending_market_orders ∧
      (FLB.submit_order (FLB.OrderU.limit lo) bk).pending_stop_orders =
        bk.pending_stop_orders) ∧
    (dictLookup so.order_id
        (FLB.submit_order (FLB.OrderU.stop so) bk).pending_stop_orders =
        some so ∧
      (∀ j, j ≠ so.order_id →
        dictLookup j
          (FLB.submit_order (FLB.OrderU.stop so) bk).pending_stop_orders =
        dictLookup j bk.pending_stop_orders) ∧
      (FLB.submit_order (FLB.OrderU.stop so) bk).pending_market_orders =
        bk.pending_market_orders ∧
      (FLB.submit_order (FLB.OrderU.stop so) bk).pending_limit_orders =
        bk.pending_limit_orders) ∧
    (dictLookup cmo.order_id
        (CERP.submit_order (CERP.COrderU.market cmo) cbk).pending_market_orders =
        some cmo ∧
      (∀ j, j ≠ cmo.order_id →
        dictLookup j
          (CERP.submit_order (CERP.COrderU.market cmo) cbk).pending_market_orders =
        dictLookup j cbk.pending_market_orders) ∧
      (CERP.submit_order (CERP.COrderU.market cmo) cbk).pending_limit_orders =
        cbk.pending_limit_orders ∧
      (CERP.submit_order (CERP.COrderU.market cmo) cbk).pending_stop_orders =
        cbk.pending_stop_orders) := by
  refine ⟨⟨?_, ?_, rfl, rfl⟩, ⟨?_, ?_, rfl, rfl⟩, ⟨?_, ?_, rfl, rfl⟩,
    ⟨?_, ?_, rfl, rfl⟩⟩
  · exact dictLookup_dictInsert_self _ _ _
  · intro j hj
    exact dictLookup_dictInsert_ne _ _ _ _ hj
  · exact dictLookup_dictInsert_self _ _ _
  · intro j hj
    exact dictLookup_dictInsert_ne _ _ _ _ hj
  · exact dictLookup_dictInsert_self _ _ _
  · intro j hj
    exact dictLookup_dictInsert_ne _ _ _ _ hj
  · exact dictLookup_dictInsert_self _ _ _
  · intro j hj
    exact dictLookup_dictInsert_ne _ _ _ _ hj

/-- Witness for C6: the overwrite instance with duplicate id 1. -/
theorem c6_submit_order_overwrites_silently_witness :
    ((dictLookup exMO7.order_id
        (FLB.submit_order (FLB.OrderU.market exMO7) exBook1).pending_market_orders =
        some exMO7 ∧
      (∀ j, j ≠ exMO7.order_id →
        dictLookup j
          (FLB.submit_order (FLB.OrderU.market exMO7) exBook1).pending_market_orders =
        dictLookup j exBook1.pending_market_orders) ∧
      (FLB.submit_order (FLB.OrderU.market exMO7) exBook1).pending_limit_orders =
        exBook1.pending_limit_orders ∧
      (FLB.submit_order (FLB.OrderU.market exMO7) exBook1).pending_stop_orders =
        exBook1.pending_stop_orders) ∧
    (dictLookup exLO.order_id
        (FLB.submit_order (FLB.OrderU.limit exLO) exBook1).pending_limit_orders =
        some exLO ∧
      (∀ j, j ≠ exLO.order_id →
        dictLookup j
          (FLB.submit_order (FLB.OrderU.limit exLO) exBook1).pending_limit_orders =
        dictLookup j exBook1.pending_limit_orders) ∧
      (FLB.submit_order (FLB.OrderU.limit exLO) exBook1).pending_market_orders =
        exBook1.pending_market_orders ∧
      (FLB.submit_order (FLB.OrderU.limit exLO) exBook1).pending_stop_orders =
        exBook1.pending_stop_orders) ∧
    (dictLookup exSO.order_id
        (FLB.submit_order (FLB.OrderU.stop exSO) exBook1).pending_stop_orders =
        some exSO ∧
      (∀ j, j ≠ exSO.order_id →
        dictLookup j
          (FLB.submit_order (FLB.OrderU.stop exSO) exBook1).pending_stop_orders =
        dictLookup j exBook1.pending_stop_orders) ∧
      (FLB.submit_order (FLB.OrderU.stop exSO) exBook1).pending_market_orders =
        exBook1.pending_market_orders ∧
      (FLB.submit_order (FLB.OrderU.stop exSO) exBook1).pending_limit_orders =
        exBook1.pending_limit_orders) ∧
    (dictLookup exCerpMarket.order_id
        (CERP.submit_order (CERP.COrderU.market exCerpMarket)
          exCerpState).pending_market_orders = some exCerpMarket ∧
      (∀ j, j ≠ exCerpMarket.order_id →
        dictLookup j
          (CERP.submit_order (CERP.COrderU.market exCerpMarket)
            exCerpState).pending_market_orders =
        dictLookup j exCerpState.pending_market_orders) ∧
      (CERP.submit_order (CERP.COrderU.market exCerpMarket)
          exCerpState).pending_limit_orders = exCerpState.pending_limit_orders ∧
      (CERP.submit_order (CERP.COrderU.market exCerpMarket)
          exCerpState).pending_stop_orders = exCerpState.pending_stop_orders)) :=
  c6_submit_order_overwrites_silently exBook1 exMO7 exLO exSO exCerpState exCerpMarket

/-- Counterexample to C7 as stated: an order with quantity -5 is accepted
by submit_order without any error (no validation exists), sits in the
pending market dict, and the next processed bar fills it, producing a
trade with the same non-positive quantity. -/
theorem c7_counterexample_negative_quantity_accepted :
    exMOneg.quantity ≤ 0 ∧
    (FLB.submit_order (FLB.OrderU.market exMOneg) exState0.book).pending_market_orders =
      [(1, exMOneg)] ∧
    (FLB.process_orders exBar1
        (FLB.submit_order (FLB.OrderU.market exMOneg) exState0.book)).1 =
      [⟨0, 1, 1, FLB.TradeDirection.BUY, -5, 100⟩] := by
  refine ⟨?_, ?_, ?_⟩ <;> decide

/-- C7 (amended): submit_order performs no quantity validation in either
variant: every order, including one with quantity <= 0, is stored in the
dict of its kind, and the market loop copies each pending order quantity
unchanged into the trade it produces, so a non-positive quantity
propagates into the trade table. -/
theorem c7_no_quantity_validation
    (bk : FLB.Book) (mo : FLB.MarketOrder) (lo : FLB.LimitOrder)
    (so : FLB.StopOrder) (n : Nat) (b : Bar)
    (l : List (Nat × FLB.MarketOrder)) (cbk : CERP.BTState)
    (cmo : CERP.MarketOrder) :
    dictLookup mo.order_id
      (FLB.submit_order (FLB.OrderU.market mo) bk).pending_market_orders =
      some mo ∧
    dictLookup lo.order_id
      (FLB.submit_order (FLB.OrderU.limit lo) bk).pending_limit_orders = some lo ∧
    dictLookup so.order_id
      (FLB.submit_order (FLB.OrderU.stop so) bk).pending_stop_orders = some so ∧
    (FLB.marketPhase n b l).1.map (fun t => t.quantity) =
      l.map (fun p => p.2.quantity) ∧
    dictLookup cmo.order_id
      (CERP.submit_order (CERP.COrderU.market cmo) cbk).pending_market_orders =
      some cmo := by
  refine ⟨dictLookup_dictInsert_self _ _ _, dictLookup_dictInsert_self _ _ _,
    dictLookup_dictInsert_self _ _ _, ?_, dictLookup_dictInsert_self _ _ _⟩
  induction l generalizing n with
  | nil => rfl
  | cons p rest ih =>
    simp only [FLB.marketPhase, List.map_cons]
    rw [ih]

/-- Counterexample to C8 as stated: with no pricing context configured,
processing a bar raises the configuration error even though every
pending collection is empty, so no fee-aware fill is attempted; the
error is therefore not equivalent to a fill being attempted without a
context, it is raised unconditionally at the start of every bar. -/
theorem c8_counterexample_error_without_fill_attempt :
    exCerpEmpty.pending_market_orders = [] ∧
    exCerpEmpty.pending_limit_orders = [] ∧
    exCerpEmpty.pending_stop_orders = [] ∧
    CERP.process_pending_orders exBar1 exCerpEmpty =
      Except.error CERP.CerpError.contractNotSet :=
  ⟨rfl, rfl, rfl, rfl⟩

/-- C8 (amended): per-bar processing of the fee-aware variant fails with
the configuration error if and only if no pricing context is configured;
the check runs unconditionally at the start of processing every bar,
whether or not any pending order exists, and once set_contract has been
called the processing of any bar succeeds. -/
theorem c8_configuration_error_iff_contract_unset (b : Bar) (s : CERP.BTState) :
    ((∃ e, CERP.process_pending_orders b s = Except.error e) ↔
      s.current_contract = none) ∧
    (∀ (c : CERP.Contract) (s0 : CERP.BTState),
      ∃ ts s1, CERP.process_pending_orders b (CERP.set_contract c s0) =
        Except.ok (ts, s1)) := by
  constructor
  · constructor
    · rintro ⟨e, he⟩
      cases hc : s.current_contract with
      | none => rfl
      | some c =>
        rw [CERP.process_pending_orders, hc] at he
        simp at he
    · intro hc
      exact ⟨CERP.CerpError.contractNotSet, by rw [CERP.process_pending_orders, hc]⟩
  · intro c s0
    exact ⟨_, _, rfl⟩

namespace FLB

theorem flush_trade_buffer_eq (s : LedgerState) :
    flush_trade_buffer s = ⟨[], s.executed_trades ++ s.trade_buffer⟩ := by
  by_cases h : s.trade_buffer = []
  · rcases s with ⟨buf, ex⟩
    simp only at h
    subst h
    simp [flush_trade_buffer]
  · rw [flush_trade_buffer, if_neg h]

theorem ledgerAdd_cases (cap : Nat) (t : Trade) (s : LedgerState)
    (hs : s.trade_buffer.length < cap) :
    ledgerAdd cap t s =
      if s.trade_buffer.length + 1 = cap
      then ⟨[], s.executed_trades ++ (s.trade_buffer ++ [t])⟩
      else ⟨s.trade_buffer ++ [t], s.executed_trades⟩ := by
  have h1 : ¬ cap ≤ s.trade_buffer.length := by omega
  rw [ledgerAdd, dequeAppend, if_neg h1]
  by_cases h2 : s.trade_buffer.length + 1 = cap
  · have h3 : cap ≤ (s.trade_buffer ++ [t]).length := by
      simp only [List.length_append, List.length_singleton]
      omega
    rw [if_pos h3, if_pos h2, flush_trade_buffer_eq]
  · have h3 : ¬ cap ≤ (s.trade_buffer ++ [t]).length := by
      simp only [List.length_append, List.length_singleton]
      omega
    rw [if_neg h3, if_neg h2]

theorem runOps_invariant (cap : Nat) (h : 1 ≤ cap) :
    ∀ (ops : List LOp) (s : LedgerState), s.trade_buffer.length < cap →
      (runOps cap s ops).trade_buffer.length < cap ∧
      (runOps cap s ops).executed_trades ++ (runOps cap s ops).trade_buffer =
        (s.executed_trades ++ s.trade_buffer) ++ tradesOfOps ops := by
  intro ops
  induction ops with
  | nil =>
    intro s hs
    exact ⟨hs, by simp [runOps, tradesOfOps]⟩
  | cons op rest ih =>
    intro s hs
    rcases op with t | _
    · rw [runOps, List.foldl_cons]
      have happ : applyOp cap s (LOp.add t) = ledgerAdd cap t s := rfl
      rw [happ, ledgerAdd_cases cap t s hs]
      by_cases h2 : s.trade_buffer.length + 1 = cap
      · rw [if_pos h2]
        obtain ⟨g1, g2⟩ := ih ⟨[], s.executed_trades ++ (s.trade_buffer ++ [t])⟩
          (by simpa using h)
        rw [runOps] at g1 g2
        refine ⟨g1, ?_⟩
        rw [g2]
        simp [tradesOfOps, List.append_assoc]
      · rw [if_neg h2]
        obtain ⟨g1, g2⟩ := ih ⟨s.trade_buffer ++ [t], s.executed_trades⟩
          (by simp only [List.length_append, List.length_singleton]; omega)
        rw [runOps] at g1 g2
        refine ⟨g1, ?_⟩
        rw [g2]
        simp [tradesOfOps, List.append_assoc]
    · rw [runOps, List.foldl_cons]
      have happ : applyOp cap s LOp.flush = flush_trade_buffer s := rfl
      rw [happ, flush_trade_buffer_eq]
      obtain ⟨g1, g2⟩ := ih ⟨[], s.executed_trades ++ s.trade_buffer⟩
        (by simpa using h)
      rw [runOps] at g1 g2
      refine ⟨g1, ?_⟩
      rw [g2]
      simp [tradesOfOps]

end FLB

/-- C9: for any capacity C >= 1 (the source uses 1000), after any
sequence of add and flush operations starting from an empty ledger the
buffer length never exceeds C (it stays strictly below C after every
operation) and no trade is ever dropped: the durable table followed by
the buffer is exactly the sequence of added trades in submission order.
Additionally, on any ledger state within capacity, an add appends the
trade and flushes exactly when the buffer reaches C, a flush moves the
whole buffer in order into the durable table leaving the buffer empty,
and a flush of an empty buffer is a no-op. -/
theorem c9_ledger_buffer_invariants (cap : Nat) (h : 1 ≤ cap) :
    (∀ ops : List FLB.LOp,
      (FLB.runOps cap ⟨[], []⟩ ops).trade_buffer.length ≤ cap ∧
      (FLB.runOps cap ⟨[], []⟩ ops).executed_trades ++
        (FLB.runOps cap ⟨[], []⟩ ops).trade_buffer = FLB.tradesOfOps ops) ∧
    (∀ (s : FLB.LedgerState) (t : FLB.Trade), s.trade_buffer.length + 1 < cap →
      FLB.ledgerAdd cap t s = ⟨s.trade_buffer ++ [t], s.executed_trades⟩) ∧
    (∀ (s : FLB.LedgerState) (t : FLB.Trade), s.trade_buffer.length + 1 = cap →
      FLB.ledgerAdd cap t s =
        ⟨[], s.executed_trades ++ (s.trade_buffer ++ [t])⟩) ∧
    (∀ s : FLB.LedgerState, FLB.flush_trade_buffer s =
      ⟨[], s.executed_trades ++ s.trade_buffer⟩) ∧
    (∀ s : FLB.LedgerState, s.trade_buffer = [] → FLB.flush_trade_buffer s = s) := by
  refine ⟨?_, ?_, ?_, FLB.flush_trade_buffer_eq, ?_⟩
  · intro ops
    obtain ⟨g1, g2⟩ := FLB.runOps_invariant cap h ops ⟨[], []⟩ (by simpa using h)
    refine ⟨le_of_lt g1, ?_⟩
    rw [g2]
    simp
  · intro s t hlt
    rw [FLB.ledgerAdd_cases cap t s (by omega), if_neg (by omega)]
  · intro s t heq
    rw [FLB.ledgerAdd_cases cap t s (by omega), if_pos heq]
  · intro s hbuf
    rw [FLB.flush_trade_buffer, if_pos hbuf]

/-- Witness for C9 at capacity 2 on a concrete operation sequence: the
third add triggers the capacity flush, the explicit flush moves the rest,
and the round trip preserves submission order. -/
theorem c9_ledger_buffer_invariants_witness :
    1 ≤ 2 ∧
    ((∀ ops : List FLB.LOp,
      (FLB.runOps 2 ⟨[], []⟩ ops).trade_buffer.length ≤ 2 ∧
      (FLB.runOps 2 ⟨[], []⟩ ops).executed_trades ++
        (FLB.runOps 2 ⟨[], []⟩ ops).trade_buffer = FLB.tradesOfOps ops) ∧
    (∀ (s : FLB.LedgerState) (t : FLB.Trade), s.trade_buffer.length + 1 < 2 →
      FLB.ledgerAdd 2 t s = ⟨s.trade_buffer ++ [t], s.executed_trades⟩) ∧
    (∀ (s : FLB.LedgerState) (t : FLB.Trade), s.trade_buffer.length + 1 = 2 →
      FLB.ledgerAdd 2 t s =
        ⟨[], s.executed_trades ++ (s.trade_buffer ++ [t])⟩) ∧
    (∀ s : FLB.LedgerState, FLB.flush_trade_buffer s =
      ⟨[], s.executed_trades ++ s.trade_buffer⟩) ∧
    (∀ s : FLB.LedgerState, s.trade_buffer = [] →
      FLB.flush_trade_buffer s = s)) ∧
    FLB.runOps 2 ⟨[], []⟩
      [FLB.LOp.add exTrade, FLB.LOp.flush, FLB.LOp.add exTrade,
        FLB.LOp.add exTrade, FLB.LOp.add exTrade, FLB.LOp.flush] =
      ⟨[], [exTrade, exTrade, exTrade, exTrade]⟩ :=
  ⟨by decide, c9_ledger_buffer_invariants 2 (by decide), by decide⟩
